import Mathlib

/-! Mixpanel mock: a shallow embedding of `mock.go`

The in-memory simulation `Mock` of the Mixpanel client keeps one `MockPeople`
profile per distinct id.  `Mock.Track` appends an event to the profile and
`Mock.Update` applies one of the operations `$set`, `$set_once`, `$append`,
`$union` to the profile's property mapping.

Modelling conventions.

* A Go `map[string]T` that is only read and written by key is a function
  `String → Option T`; `none` is an absent key.
* The property mapping of an `Update` is ranged over by the code, in an order
  the language leaves open.  It is a list of key/value pairs, visited in list
  order; a Go map has each key once, which is `Update.WF`.
* A Go slice is a header (`Slice`): a backing array, an offset into it, a length
  and a capacity.  The backing arrays live in a `Memory`; storing a slice copies
  the header only, and the built-in `append` writes into the backing array when
  the capacity allows it and moves the elements to a new array otherwise.
* A value of type `interface{}` is a `Value`; the Go `nil` interface value is
  `Value.nil`.
* The state of the mock (`Mock`) carries the memory its slices point into.
* A call either returns an `error` (possibly `nil`) or aborts with a run-time
  panic on a failed type assertion; both are results of type `Outcome`, and
  the state reached at that point is returned with it.
-/

namespace Mixpanel

/-! ## Slices and dynamic values -/

/-- A Go slice header: the backing array `arr`, the index `off` of its first element in
that array, its length and its capacity. -/
structure Slice where
  arr : Nat
  off : Nat
  len : Nat
  cap : Nat
  deriving DecidableEq

/-- A Go value of type `interface{}` as it occurs in property mappings. -/
inductive Value where
  /-- the `nil` interface value -/
  | nil
  /-- a `string` -/
  | str (s : String)
  /-- a number -/
  | num (n : Int)
  /-- a `bool` -/
  | bool (b : Bool)
  /-- a `[]string` -/
  | strs (s : Slice)
  /-- a `[]interface{}` -/
  | seq (s : Slice)
  deriving DecidableEq

/-- The backing arrays of one element type: the element at an index of an array. -/
abbrev Arrays (α : Type) := Nat → Nat → α

/-- The elements of a slice. -/
def Arrays.read {α : Type} (A : Arrays α) (s : Slice) : List α :=
  (List.range s.len).map (fun i => A s.arr (s.off + i))

/-- The assignment of `x` to the element `idx` of the array `arr`. -/
def Arrays.set {α : Type} (A : Arrays α) (arr idx : Nat) (x : α) : Arrays α :=
  fun a i => if a = arr ∧ i = idx then x else A a i

/-- A new array `arr` that starts with the elements `xs`; the other elements have the zero
value. -/
def Arrays.new {α : Type} (A : Arrays α) (arr : Nat) (xs : List α) (zero : α) : Arrays α :=
  fun a i => if a = arr then xs.getD i zero else A a i

/-- The built-in `append(s, x)`: when the capacity of `s` exceeds its length, `x` is written
into the backing array behind the last element; otherwise the elements move to the new
array `next`, whose capacity the growth policy `grow` gives.  Returns the arrays, the next
unused array and the resulting slice. -/
def goAppend {α : Type} (zero : α) (grow : Nat → Nat) (A : Arrays α) (next : Nat) (s : Slice)
    (x : α) : Arrays α × Nat × Slice :=
  if s.len < s.cap then
    (A.set s.arr (s.off + s.len) x, next, Slice.mk s.arr s.off (s.len + 1) s.cap)
  else
    (A.new next (A.read s ++ [x]) zero, next + 1,
      Slice.mk next 0 (s.len + 1) (max (grow s.cap) (s.len + 1)))

/-- The memory of the program: the backing arrays of the `[]string` and of the
`[]interface{}` slices, the next unused array, and the growth policy of `append`, which
the Go runtime fixes. -/
structure Memory where
  strs : Arrays String
  vals : Arrays Value
  next : Nat
  grow : Nat → Nat

/-- The elements of a `[]string`. -/
def Memory.readStrs (mem : Memory) (s : Slice) : List String := mem.strs.read s

/-- The elements of a `[]interface{}`. -/
def Memory.readVals (mem : Memory) (s : Slice) : List Value := mem.vals.read s

/-- The built-in `append` on a `[]string`. -/
def Memory.appendStr (mem : Memory) (s : Slice) (x : String) : Memory × Slice :=
  (Memory.mk (goAppend "" mem.grow mem.strs mem.next s x).1 mem.vals
      (goAppend "" mem.grow mem.strs mem.next s x).2.1 mem.grow,
    (goAppend "" mem.grow mem.strs mem.next s x).2.2)

/-- The built-in `append` on a `[]interface{}`. -/
def Memory.appendVal (mem : Memory) (s : Slice) (x : Value) : Memory × Slice :=
  (Memory.mk mem.strs (goAppend Value.nil mem.grow mem.vals mem.next s x).1
      (goAppend Value.nil mem.grow mem.vals mem.next s x).2.1 mem.grow,
    (goAppend Value.nil mem.grow mem.vals mem.next s x).2.2)

/-- A new `[]string` with the elements `xs` and capacity `cap` (at least its length), as
`make` followed by assignments or a composite literal builds it. -/
def Memory.makeStrs (mem : Memory) (xs : List String) (cap : Nat) : Memory × Slice :=
  (Memory.mk (mem.strs.new mem.next xs "") mem.vals (mem.next + 1) mem.grow,
    Slice.mk mem.next 0 xs.length (max cap xs.length))

/-- A new `[]interface{}` with the elements `xs` and capacity `cap` (at least its length);
`[]interface{}{val}` is `makeVals [val] 1`. -/
def Memory.makeVals (mem : Memory) (xs : List Value) (cap : Nat) : Memory × Slice :=
  (Memory.mk mem.strs (mem.vals.new mem.next xs Value.nil) (mem.next + 1) mem.grow,
    Slice.mk mem.next 0 xs.length (max cap xs.length))

/-! ## Maps -/

/-- A Go map from strings, read and written by key. -/
abbrev GoMap (α : Type) := String → Option α

/-- The empty map `map[string]T{}`. -/
def GoMap.empty {α : Type} : GoMap α := fun _ => none

/-- The assignment `m[key] = val`. -/
def GoMap.put {α : Type} (m : GoMap α) (key : String) (val : α) : GoMap α :=
  fun k => if k = key then some val else m k

/-- The indexing expression `m[key]` on the entries of a map that is ranged over. -/
def lookup (key : String) : List (String × Value) → Option Value
  | [] => none
  | (k, v) :: rest => if k = key then some v else lookup key rest

/-! ## Data model -/

/-- Modelled from the spec: the `*time.Time` of an `Event` or `Update`, whose declaration
(with that of the sentinel `IgnoreTime`) is in a file that is not part of the sources.
It is either the sentinel pointer or a pointer to a time, here epoch seconds; the `nil`
pointer is `none : Option TimePtr`. -/
inductive TimePtr where
  | ignore
  | time (unix : Int)
  deriving DecidableEq

/-- Modelled from the spec: the sentinel "ignore time" marker, which means "do not alter
the stored timestamp". -/
def IgnoreTime : TimePtr := TimePtr.ignore

/-- Modelled from the spec: the `Event` structure, declared in a file that is not part of
the sources; `mock.go` reads its fields `IP`, `Timestamp` and `Properties`. -/
structure Event where
  IP : String
  Timestamp : Option TimePtr
  Properties : List (String × Value)
  deriving DecidableEq

/-- Modelled from the spec: the `Update` structure, declared in a file that is not part of
the sources; `mock.go` reads its fields `IP`, `Timestamp`, `Operation` and `Properties`. -/
structure Update where
  IP : String
  Timestamp : Option TimePtr
  Operation : String
  Properties : List (String × Value)
  deriving DecidableEq

/-- The keys of the property mapping of an update, in visiting order. -/
def Update.keys (u : Update) : List String := u.Properties.map Prod.fst

/-- The property mapping of an update is a map: each key occurs once. -/
def Update.WF (u : Update) : Prop := u.keys.Nodup

instance (u : Update) : Decidable u.WF := by unfold Update.WF; infer_instance

/-- An entry of a profile's event sequence (`MockEvent`). -/
structure MockEvent where
  Event : Event
  Name : String
  deriving DecidableEq

/-- The profile of one distinct id (`MockPeople`). -/
structure MockPeople where
  Properties : GoMap Value
  Time : Option TimePtr
  IP : String
  Events : List MockEvent

/-- The mock state: the `People` map of `Mock`, all people identified, mapped by distinct
id, together with the memory `Mem` that the slices stored in the profiles and passed in
updates point into. -/
structure Mock where
  People : GoMap MockPeople
  Mem : Memory

/-- The result of a call: it returns an `error` value (`none` is the `nil` error, `some msg`
an error made by `errors.New(msg)`), or it aborts on a failed type assertion. -/
inductive Outcome where
  | returned (err : Option String)
  | panicked
  deriving DecidableEq

/-! ## Operations -/

/-- The constructor `NewMock`, called in a program whose memory is `mem`. -/
def NewMock (mem : Memory) : Mock := { People := GoMap.empty, Mem := mem }

/-- The profile literal `&MockPeople{Properties: map[string]interface{}{}}`. -/
def MockPeople.fresh : MockPeople :=
  { Properties := GoMap.empty, Time := none, IP := "", Events := [] }

/-- The method `Mock.people`: the profile of `distinctId`, added to the `People` map when
the id is unseen.  Returns the profile and the store that holds it. -/
def Mock.people (m : Mock) (distinctId : String) : MockPeople × Mock :=
  match m.People distinctId with
  | some p => (p, m)
  | none => (MockPeople.fresh, Mock.mk (m.People.put distinctId MockPeople.fresh) m.Mem)

/-- Writes through the pointer returned by `Mock.people`: the profile stored under
`distinctId` becomes `p`. -/
def Mock.store (m : Mock) (distinctId : String) (p : MockPeople) : Mock :=
  Mock.mk (m.People.put distinctId p) m.Mem

/-- The method `Mock.Track`. -/
def Mock.Track (m : Mock) (distinctId eventName : String) (e : Event) : Mock × Outcome :=
  let (p, m) := m.people distinctId
  let p := { p with Events := p.Events ++ [{ Event := e, Name := eventName }] }
  (m.store distinctId p, Outcome.returned none)

/-- The loop of the `$set` case. -/
def setLoop : List (String × Value) → GoMap Value → GoMap Value
  | [], props => props
  | (key, val) :: rest, props => setLoop rest (props.put key val)

/-- The loop of the `$set_once` case. -/
def setOnceLoop : List (String × Value) → GoMap Value → GoMap Value
  | [], props => props
  | (key, val) :: rest, props =>
    match props key with
    | none => setOnceLoop rest (props.put key val)
    | some _ => setOnceLoop rest props

/-- The loop of the `$append` case; `array.([]interface{})` aborts when the stored value
is not a `[]interface{}`, and `append` acts on the backing array of the stored slice. -/
def appendLoop : List (String × Value) → Memory → GoMap Value →
    (Memory × GoMap Value) × Outcome
  | [], mem, props => ((mem, props), Outcome.returned none)
  | (key, val) :: rest, mem, props =>
    match props key with
    | some array =>
      match array with
      | Value.seq s =>
        appendLoop rest (mem.appendVal s val).1
          (props.put key (Value.seq (mem.appendVal s val).2))
      | _ => ((mem, props), Outcome.panicked)
    | none =>
      appendLoop rest (mem.makeVals [val] 1).1
        (props.put key (Value.seq (mem.makeVals [val] 1).2))

/-- The two nested loops over `newVal` and `oldVal` of the `$union` case, for the `n`
elements of the incoming slice `inc` from index `i` on: each `newVal`, read from the
backing array of `inc` when its turn comes, that equals no element of `a` is appended to
`a`. -/
def unionStringsFrom (inc : Slice) : Nat → Nat → Memory → Slice → Memory × Slice
  | 0, _, mem, a => (mem, a)
  | n + 1, i, mem, a =>
    if (mem.readStrs a).any (fun oldVal => oldVal == mem.strs inc.arr (inc.off + i)) then
      unionStringsFrom inc n (i + 1) mem a
    else
      unionStringsFrom inc n (i + 1) (mem.appendStr a (mem.strs inc.arr (inc.off + i))).1
        (mem.appendStr a (mem.strs inc.arr (inc.off + i))).2

/-- The loop `for _, newVal := range u.Properties[key].([]string)` of the `$union` case on
the stored slice `a`. -/
def unionStrings (mem : Memory) (a inc : Slice) : Memory × Slice :=
  unionStringsFrom inc inc.len 0 mem a

/-- The loop of the `$union` case over the entries `uProps` of the update; `entries` are
those still to visit.  `curArray == nil` holds for an absent key and for a stored `nil`;
`u.Properties[key].([]string)` aborts when the incoming value is not a `[]string`. -/
def unionLoop (uProps : List (String × Value)) :
    List (String × Value) → Memory → GoMap Value → (Memory × GoMap Value) × Outcome
  | [], mem, props => ((mem, props), Outcome.returned none)
  | (key, val) :: rest, mem, props =>
    match props key with
    | none => unionLoop uProps rest mem (props.put key val)
    | some Value.nil => unionLoop uProps rest mem (props.put key val)
    | some (Value.strs a) =>
      match lookup key uProps with
      | some (Value.strs inc) =>
        unionLoop uProps rest (unionStrings mem a inc).1
          (props.put key (Value.strs (unionStrings mem a inc).2))
      | _ => ((mem, props), Outcome.panicked)
    | some _ =>
      ((mem, props), Outcome.returned (some "Can only do $union operation on an array"))

/-- The `switch u.Operation` of `Mock.Update`, on the memory and the property mapping of
the profile. -/
def applyOperation (u : Update) (mem : Memory) (props : GoMap Value) :
    (Memory × GoMap Value) × Outcome :=
  if u.Operation = "$set" then ((mem, setLoop u.Properties props), Outcome.returned none)
  else if u.Operation = "$set_once" then
    ((mem, setOnceLoop u.Properties props), Outcome.returned none)
  else if u.Operation = "$append" then appendLoop u.Properties mem props
  else if u.Operation = "$union" then unionLoop u.Properties u.Properties mem props
  else ((mem, props), Outcome.returned (some "mixpanel.Mock only supports the $set operation"))

/-- The IP rule at the head of `Mock.Update`. -/
def updateIP (u : Update) (p : MockPeople) : MockPeople :=
  if u.IP ≠ "" then
    if u.IP ≠ "0" ∨ p.IP = "" then { p with IP := u.IP } else p
  else p

/-- The timestamp rule at the head of `Mock.Update`. -/
def updateTime (u : Update) (p : MockPeople) : MockPeople :=
  if u.Timestamp ≠ none ∧ u.Timestamp ≠ some IgnoreTime then { p with Time := u.Timestamp }
  else p

/-- The method `Mock.Update`. -/
def Mock.Update (m : Mock) (distinctId : String) (u : Update) : Mock × Outcome :=
  let (p, m) := m.people distinctId
  let p := updateIP u p
  let p := updateTime u p
  let r := applyOperation u m.Mem p.Properties
  (Mock.mk (m.People.put distinctId { p with Properties := r.1.2 }) r.1.1, r.2)

/-! ## Observations -/

/-- The profile of `distinctId`, the fresh one when the id is unseen. -/
def Mock.profile (m : Mock) (distinctId : String) : MockPeople :=
  (m.People distinctId).getD MockPeople.fresh

/-- The property mapping of the profile of `distinctId`, empty when the id is unseen. -/
def Mock.props (m : Mock) (distinctId : String) : GoMap Value :=
  (m.profile distinctId).Properties

/-- The elements of the string sequence stored under `key` in the profile of `distinctId`,
when a `[]string` is stored there. -/
def Mock.strsAt (m : Mock) (distinctId key : String) : Option (List String) :=
  match m.props distinctId key with
  | some (Value.strs s) => some (m.Mem.readStrs s)
  | _ => none

/-- The elements of the generic sequence stored under `key` in the profile of
`distinctId`, when a `[]interface{}` is stored there. -/
def Mock.seqAt (m : Mock) (distinctId key : String) : Option (List Value) :=
  match m.props distinctId key with
  | some (Value.seq s) => some (m.Mem.readVals s)
  | _ => none

/-- Runs a sequence of updates for one distinct id, as the loop of `TestUpdateUnion` does;
stops at the first call that does not return `nil`. -/
def runUpdates (m : Mock) (distinctId : String) : List Update → Mock × Outcome
  | [] => (m, Outcome.returned none)
  | u :: rest =>
    match m.Update distinctId u with
    | (m1, Outcome.returned none) => runUpdates m1 distinctId rest
    | r => r

/-- A memory in which nothing is allocated yet and `append` doubles the capacity. -/
def Memory.start : Memory :=
  { strs := fun _ _ => "", vals := fun _ _ => Value.nil, next := 0, grow := fun c => 2 * c }

/-- An update built from an operation kind and a property mapping, with no IP and no
timestamp. -/
def Update.of (operation : String) (properties : List (String × Value)) : Update :=
  { Operation := operation, IP := "", Timestamp := none, Properties := properties }

/-- The memory of the examples: the string slices `["a"]`, `["b"]`, `["c","a","b","d"]`,
`["x"]`, `["y"]`, `["z"]`, `["p"]`, `["c","c","a"]`, `["a","b"]` and `["e"]`, each with the
capacity of its length, and a buffer `["a"]` of capacity 8. -/
def exampleMemory : Memory :=
  (((((((((((Memory.start.makeStrs ["a"] 1).1.makeStrs ["b"] 1).1.makeStrs
    ["c", "a", "b", "d"] 4).1.makeStrs ["x"] 1).1.makeStrs ["y"] 1).1.makeStrs
    ["z"] 1).1.makeStrs ["p"] 1).1.makeStrs ["c", "c", "a"] 3).1.makeStrs
    ["a", "b"] 2).1.makeStrs ["e"] 1).1.makeStrs ["a"] 8).1

/-- A call on the mock: `Track(distinctId, eventName, e)` or `Update(distinctId, u)`. -/
inductive Call where
  | track (distinctId eventName : String) (e : Event)
  | update (distinctId : String) (u : Update)
  deriving DecidableEq

/-- The state and the result of one call. -/
def Mock.call (m : Mock) : Call → Mock × Outcome
  | Call.track distinctId eventName e => m.Track distinctId eventName e
  | Call.update distinctId u => m.Update distinctId u

/-- The state after a sequence of calls, each made on the state the previous call left,
whatever its result. -/
def Mock.run (m : Mock) : List Call → Mock
  | [] => m
  | c :: rest => (m.call c).1.run rest

/-! ## The transport client -/

/-- Modelled from the spec: the errors of the transport client, whose source file is not
part of the sources: the sentinel for a response that reports failure, and a transport
failure, which is propagated as it is. -/
inductive ClientError where
  | trackFailed
  | transport (msg : String)
  deriving DecidableEq

/-- Modelled from the spec: the sentinel error `ErrTrackFailed`, identical for `Track` and
`Update`. -/
def ErrTrackFailed : ClientError := ClientError.trackFailed

/-- Modelled from the spec: the remote service as seen by one GET request: for a URL, a
transport failure or the response body. -/
abbrev Server := String → Except String String

/-- Modelled from the spec: the serialisation of the payloads of the two operations (a
JSON document, base64-encoded), left open here. -/
structure Codec where
  track : String → String → String → Event → String
  update : String → String → Update → String

/-- Modelled from the spec: the transport client, bound to a project token and a base
URL. -/
structure Client where
  token : String
  baseURL : String

/-- Modelled from the spec: the construction entry point `New(token, baseURL)`. -/
def New (token baseURL : String) : Client := { token := token, baseURL := baseURL }

/-- Modelled from the spec: a response body with its trailing newlines trimmed. -/
def trimNewline (body : String) : String :=
  String.mk ((body.data.reverse.dropWhile (fun c => c == '\n')).reverse)

/-- Modelled from the spec: one request of the transport client: the payload is submitted
as the `data` query parameter of a GET to the endpoint; a transport failure is returned as
it is, a body that is not the success marker `"1"` after trimming gives `ErrTrackFailed`,
and `none` is the `nil` error. -/
def Client.send (c : Client) (server : Server) (endpoint data : String) :
    Option ClientError :=
  match server (c.baseURL ++ endpoint ++ "?data=" ++ data) with
  | Except.error msg => some (ClientError.transport msg)
  | Except.ok body => if trimNewline body = "1" then none else some ErrTrackFailed

/-- Modelled from the spec: `Track` of the transport client, a request to `/track`. -/
def Client.Track (c : Client) (codec : Codec) (server : Server)
    (distinctId eventName : String) (e : Event) : Option ClientError :=
  c.send server "/track" (codec.track c.token distinctId eventName e)

/-- Modelled from the spec: `Update` of the transport client, a request to `/engage`. -/
def Client.Update (c : Client) (codec : Codec) (server : Server)
    (distinctId : String) (u : Update) : Option ClientError :=
  c.send server "/engage" (codec.update c.token distinctId u)

/-- The server of `TestError`, which answers every request with the body `"0\n"`. -/
def failingServer : Server := fun _ => Except.ok "0\n"

/-- A serialisation that stands for the JSON and base64 encoding in examples. -/
def plainCodec : Codec :=
  { track := fun token distinctId eventName _ => token ++ distinctId ++ eventName,
    update := fun token distinctId u => token ++ distinctId ++ u.Operation }

/-- The entries of the `Track` calls made with distinct id `d`, in call order. -/
def trackedEvents (d : String) : List Call → List MockEvent
  | [] => []
  | Call.track distinctId eventName e :: rest =>
    if distinctId = d then { Event := e, Name := eventName } :: trackedEvents d rest
    else trackedEvents d rest
  | Call.update _ _ :: rest => trackedEvents d rest

/-! ## Examples -/

/-- The slice of the composite literal that is the array `arr` of `exampleMemory`, of
length `len`. -/
def lit (arr len : Nat) : Slice := Slice.mk arr 0 len len

/-- The buffer `["a"]` of capacity 8 of `exampleMemory`. -/
def bufferA : Slice := Slice.mk 10 0 1 8

/-- The three updates of `TestUpdateUnion`, with the values `["a"]`, `["b"]` and
`["c","a","b","d"]`. -/
def unionTestUpdates : List Update :=
  [ { Operation := "$union", IP := "127.0.0.1", Timestamp := none,
      Properties := [("f", Value.strs (lit 0 1))] },
    { Operation := "$union", IP := "127.0.0.1", Timestamp := none,
      Properties := [("f", Value.strs (lit 1 1))] },
    { Operation := "$union", IP := "127.0.0.1", Timestamp := none,
      Properties := [("f", Value.strs (lit 2 4))] } ]

/-- A mock whose profile `"1"` holds the `nil` value under `"k"`, written by `$set`. -/
def nilValueMock : Mock :=
  ((NewMock exampleMemory).Update "1" (Update.of "$set" [("k", Value.nil)])).1

/-- A mock whose profile `"1"` holds the string `"x"` under `"k"`, written by `$set`. -/
def stringValueMock : Mock :=
  ((NewMock exampleMemory).Update "1" (Update.of "$set" [("k", Value.str "x")])).1

/-- A `$union` of two keys onto `stringValueMock`, with the values `["y"]` and `["z"]`:
`"a"` is absent, `"k"` holds a string. -/
def partialUnion : Update :=
  Update.of "$union" [("a", Value.strs (lit 4 1)), ("k", Value.strs (lit 5 1))]

/-- An update of an unsupported kind that carries an IP and a timestamp. -/
def unsupportedUpdate : Update :=
  { Operation := "$increment", IP := "10.0.0.1", Timestamp := some (TimePtr.time 1700000000),
    Properties := [("n", Value.num 1)] }

/-- A mock whose profile `"1"` holds the string sequence `["a"]` under `"f"`, written by
`$union`. -/
def stringsValueMock : Mock :=
  ((NewMock exampleMemory).Update "1" (Update.of "$union" [("f", Value.strs (lit 0 1))])).1

/-- A mock whose profile `"1"` has the IP `"10.0.0.1"` and a stored timestamp. -/
def knownIPMock : Mock :=
  ((NewMock exampleMemory).Update "1"
    { Operation := "$set", IP := "10.0.0.1", Timestamp := some (TimePtr.time 1700000000),
      Properties := [] }).1

/-- An update with the given IP and timestamp and no property. -/
def Update.touch (ip : String) (timestamp : Option TimePtr) : Update :=
  { Operation := "$set", IP := ip, Timestamp := timestamp, Properties := [] }

/-- A mock whose profile `"1"` holds the string sequence `["a", "b"]` under `"f"`. -/
def twoStringsMock : Mock :=
  ((NewMock exampleMemory).Update "1" (Update.of "$union" [("f", Value.strs (lit 8 2))])).1

/-- A mock whose profile `"1"` holds the string `"x"` under `"a"`, written by `$set`, and
the string sequence `["p"]` under `"b"`, written by `$union`. -/
def mixedMock : Mock :=
  (runUpdates (NewMock exampleMemory) "1"
    [Update.of "$set" [("a", Value.str "x")],
     Update.of "$union" [("b", Value.strs (lit 6 1))]]).1

/-- A `$union` of the keys `"a"`, with the value `["y"]`, and `"b"`, visited in this
order. -/
def unionAB : Update := Update.of "$union" [("a", Value.strs (lit 4 1)), ("b", Value.str "q")]

/-- The same `$union`, its keys visited in the other order. -/
def unionBA : Update := Update.of "$union" [("b", Value.str "q"), ("a", Value.strs (lit 4 1))]

/-- A mock whose profile `"1"` holds the buffer `["a"]` of capacity 8 under `"f"` and under
`"g"`: the caller passed one slice for both keys of a `$union`. -/
def sharedMock : Mock :=
  ((NewMock exampleMemory).Update "1"
    (Update.of "$union" [("f", Value.strs bufferA), ("g", Value.strs bufferA)])).1

/-- A `$union` of `["x"]` under `"f"` and of `["y"]` under `"g"`, visited in this order. -/
def sharedUnion : Update :=
  Update.of "$union" [("f", Value.strs (lit 3 1)), ("g", Value.strs (lit 4 1))]

/-- A mock whose profile `"1"` holds the generic sequence `[x, y, z, p]` under `"k"` and,
under `"k2"`, the slice that `"k"` held when its elements were `[x, y, z]`: the caller read
the property and passed it to `$set` before the last `$append`. -/
def sharedAppendMock : Mock :=
  (runUpdates (NewMock exampleMemory) "1"
    [Update.of "$append" [("k", Value.str "x")],
     Update.of "$append" [("k", Value.str "y")],
     Update.of "$append" [("k", Value.str "z")],
     Update.of "$set" [("k2", Value.seq (Slice.mk 13 0 3 4))],
     Update.of "$append" [("k", Value.str "p")]]).1

/-- A mock whose profiles `"1"` and `"2"` both received the buffer `["a"]` of capacity 8
under `"f"`, after which `"x"` was united into the sequence of `"1"`. -/
def twoProfilesMock : Mock :=
  ((((NewMock exampleMemory).Update "1" (Update.of "$union" [("f", Value.strs bufferA)])).1.Update
    "2" (Update.of "$union" [("f", Value.strs bufferA)])).1.Update
    "1" (Update.of "$union" [("f", Value.strs (lit 3 1))])).1

/-- A sequence of calls that interleaves `Track` and `Update` calls for two ids; the second
update is of an unsupported kind and the last one aborts. -/
def interleavedCalls : List Call :=
  [ Call.track "1" "Signed Up" { IP := "", Timestamp := none, Properties := [] },
    Call.update "1" (Update.of "$set" [("k", Value.str "x")]),
    Call.track "2" "Signed Up" { IP := "", Timestamp := none, Properties := [] },
    Call.update "1" (Update.of "$increment" [("n", Value.num 1)]),
    Call.track "1" "Paid" { IP := "10.0.0.1", Timestamp := none, Properties := [] },
    Call.update "1" (Update.of "$append" [("k", Value.str "y")]) ]

/-! ## Specification-side definitions -/

/-- The elements of a sequence, each taken once at its first occurrence, in the order of
the sequence. -/
def keepFirst : List String → List String
  | [] => []
  | x :: xs => x :: (keepFirst xs).filter (fun y => y ≠ x)

/-- The order-preserving union of the spec: `old`, followed by the elements of `inc` that
do not occur in `old`, each taken once at its first occurrence and in incoming order. -/
def unionSpec (old inc : List String) : List String :=
  old ++ keepFirst (inc.filter (fun x => x ∉ old))

/-- The nested loops of the `$union` case on sequences of elements: each element of the
incoming sequence that equals no element of `a` is added to `a` as last element. -/
def unionList (a : List String) : List String → List String
  | [] => a
  | newVal :: rest =>
    if a.any (fun oldVal => oldVal == newVal) then unionList a rest
    else unionList (a ++ [newVal]) rest

/-- The `n` elements of the slice `inc` from index `i` on. -/
def incFrom (mem : Memory) (inc : Slice) (i n : Nat) : List String :=
  (List.range n).map (fun j => mem.strs inc.arr (inc.off + (i + j)))

/-- The `[]string` that a stored value is, if it is one. -/
def strsOf : Option Value → Option Slice
  | some (Value.strs s) => some s
  | _ => none

/-- The `[]interface{}` that a stored value is, if it is one. -/
def seqOf : Option Value → Option Slice
  | some (Value.seq s) => some s
  | _ => none

/-- No string sequence stored under a key of `ks` has spare capacity in the array `b`: an
`append` to one of them does not write into `b`. -/
def StrsQuiet (P : GoMap Value) (ks : List String) (b : Nat) : Prop :=
  ∀ k ∈ ks, ∀ s ∈ strsOf (P k), s.len < s.cap → s.arr ≠ b

/-- No generic sequence stored under a key of `ks` has spare capacity in the array `b`. -/
def SeqsQuiet (P : GoMap Value) (ks : List String) (b : Nat) : Prop :=
  ∀ k ∈ ks, ∀ s ∈ seqOf (P k), s.len < s.cap → s.arr ≠ b

/-- The string sequences stored under the keys `ks` lie in allocated arrays. -/
def StrsAllocated (mem : Memory) (P : GoMap Value) (ks : List String) : Prop :=
  ∀ k ∈ ks, ∀ s ∈ strsOf (P k), s.arr < mem.next

/-- The generic sequences stored under the keys `ks` lie in allocated arrays. -/
def SeqsAllocated (mem : Memory) (P : GoMap Value) (ks : List String) : Prop :=
  ∀ k ∈ ks, ∀ s ∈ seqOf (P k), s.arr < mem.next

instance (P : GoMap Value) (ks : List String) (b : Nat) : Decidable (StrsQuiet P ks b) := by
  unfold StrsQuiet; infer_instance

instance (P : GoMap Value) (ks : List String) (b : Nat) : Decidable (SeqsQuiet P ks b) := by
  unfold SeqsQuiet; infer_instance

instance (mem : Memory) (P : GoMap Value) (ks : List String) :
    Decidable (StrsAllocated mem P ks) := by
  unfold StrsAllocated; infer_instance

instance (mem : Memory) (P : GoMap Value) (ks : List String) :
    Decidable (SeqsAllocated mem P ks) := by
  unfold SeqsAllocated; infer_instance

/-- The value a key holds once the `$set_once` case has visited it with incoming value
`val`, when it held `cur` before. -/
def setOnceValue (cur : Option Value) (val : Value) : Option Value :=
  match cur with
  | none => some val
  | some c => some c

/-- The string sequences involved in a `$union` of `entries` onto the property mapping `P`
are apart: the stored ones lie in allocated arrays, and for every entry whose key holds a
string sequence `a`, no string sequence stored under another key of the update has spare
capacity in the array of `a`, the incoming string sequence lies in an allocated array, and
no string sequence stored under a key of the update has spare capacity in the array of
the incoming one. -/
def UnionSeparate (mem : Memory) (P : GoMap Value) (entries : List (String × Value)) : Prop :=
  StrsAllocated mem P (entries.map Prod.fst) ∧
    ∀ e ∈ entries, ∀ a ∈ strsOf (P e.1),
      StrsQuiet P ((entries.map Prod.fst).filter (fun k' => k' ≠ e.1)) a.arr ∧
      ∀ inc ∈ strsOf (some e.2),
        inc.arr < mem.next ∧ StrsQuiet P (entries.map Prod.fst) inc.arr

/-- The generic sequences stored under the keys `ks` are apart: they lie in allocated
arrays, and none has spare capacity in the array of one stored under another of the
keys. -/
def AppendSeparate (mem : Memory) (P : GoMap Value) (ks : List String) : Prop :=
  SeqsAllocated mem P ks ∧
    ∀ k ∈ ks, ∀ s ∈ seqOf (P k), SeqsQuiet P (ks.filter (fun k' => k' ≠ k)) s.arr

instance (mem : Memory) (P : GoMap Value) (entries : List (String × Value)) :
    Decidable (UnionSeparate mem P entries) := by
  unfold UnionSeparate; infer_instance

instance (mem : Memory) (P : GoMap Value) (ks : List String) :
    Decidable (AppendSeparate mem P ks) := by
  unfold AppendSeparate; infer_instance

/-- The update `u` with the entries `entries` as property mapping. -/
def Update.restrict (u : Update) (entries : List (String × Value)) : Update :=
  { Operation := u.Operation, IP := u.IP, Timestamp := u.Timestamp, Properties := entries }

/-! ## Lemmas on backing arrays and `append` -/

theorem Arrays.read_congr {α : Type} (A B : Arrays α) (s : Slice) (h : A s.arr = B s.arr) :
    A.read s = B.read s := by
  unfold Arrays.read
  rw [h]

theorem Arrays.set_other {α : Type} (A : Arrays α) (arr idx : Nat) (x : α) (b : Nat)
    (h : b ≠ arr) : (A.set arr idx x) b = A b := by
  funext i
  simp [Arrays.set, h]

theorem Arrays.new_other {α : Type} (A : Arrays α) (arr : Nat) (xs : List α) (zero : α)
    (b : Nat) (h : b ≠ arr) : (A.new arr xs zero) b = A b := by
  funext i
  simp [Arrays.new, h]

theorem map_getD_range {α : Type} (xs : List α) (zero : α) :
    (List.range xs.length).map (fun i => xs.getD i zero) = xs := by
  apply List.ext_getElem
  · simp
  · intro n h1 h2
    simp only [List.getElem_map, List.getElem_range]
    rw [List.getD_eq_getElem _ _ h2]

theorem Arrays.read_new {α : Type} (A : Arrays α) (arr : Nat) (xs : List α) (zero : α)
    (c : Nat) : (A.new arr xs zero).read (Slice.mk arr 0 xs.length c) = xs := by
  simp only [Arrays.read, Arrays.new, if_true, Nat.zero_add]
  exact map_getD_range xs zero

theorem Arrays.read_set_end {α : Type} (A : Arrays α) (s : Slice) (x : α) :
    (A.set s.arr (s.off + s.len) x).read (Slice.mk s.arr s.off (s.len + 1) s.cap)
      = A.read s ++ [x] := by
  simp only [Arrays.read, List.range_succ, List.map_append, List.map_cons, List.map_nil]
  congr 1
  · apply List.map_congr_left
    intro i hi
    have hlt : i < s.len := List.mem_range.1 hi
    have hne : ¬ (s.off + i = s.off + s.len) := by omega
    simp [Arrays.set, hne]
  · simp [Arrays.set]

theorem Arrays.read_length {α : Type} (A : Arrays α) (s : Slice) :
    (A.read s).length = s.len := by
  simp [Arrays.read]

/-- The slice that `append` returns holds the elements of its argument followed by the
appended element. -/
theorem goAppend_read {α : Type} (zero : α) (grow : Nat → Nat) (A : Arrays α) (next : Nat)
    (s : Slice) (x : α) :
    (goAppend zero grow A next s x).1.read (goAppend zero grow A next s x).2.2
      = A.read s ++ [x] := by
  unfold goAppend
  split_ifs
  · exact Arrays.read_set_end A s x
  · have h := Arrays.read_new A next (A.read s ++ [x]) zero (max (grow s.cap) (s.len + 1))
    simp only [List.length_append, Arrays.read_length, List.length_singleton] at h
    exact h

/-- An allocated array is left as it was by `append`, unless the slice has spare capacity
in it. -/
theorem goAppend_frame {α : Type} (zero : α) (grow : Nat → Nat) (A : Arrays α) (next : Nat)
    (s : Slice) (x : α) (b : Nat) (hb : b < next) (hq : s.len < s.cap → s.arr ≠ b) :
    (goAppend zero grow A next s x).1 b = A b := by
  unfold goAppend
  split_ifs with h
  · exact Arrays.set_other A _ _ x b (Ne.symm (hq h))
  · exact Arrays.new_other A _ _ zero b (Nat.ne_of_lt hb)

theorem goAppend_next {α : Type} (zero : α) (grow : Nat → Nat) (A : Arrays α) (next : Nat)
    (s : Slice) (x : α) : next ≤ (goAppend zero grow A next s x).2.1 := by
  unfold goAppend
  split_ifs <;> simp

/-- The slice that `append` returns lies in the array of its argument, which then had
spare capacity, or in a new array. -/
theorem goAppend_arr {α : Type} (zero : α) (grow : Nat → Nat) (A : Arrays α) (next : Nat)
    (s : Slice) (x : α) :
    ((goAppend zero grow A next s x).2.2.arr = s.arr ∧ s.len < s.cap ∧
        (goAppend zero grow A next s x).2.1 = next) ∨
      ((goAppend zero grow A next s x).2.2.arr = next ∧
        (goAppend zero grow A next s x).2.1 = next + 1) := by
  unfold goAppend
  split_ifs with h
  · exact Or.inl ⟨rfl, h, rfl⟩
  · exact Or.inr ⟨rfl, rfl⟩

theorem Memory.readStrs_congr (mem mem' : Memory) (s : Slice)
    (h : mem'.strs s.arr = mem.strs s.arr) : mem'.readStrs s = mem.readStrs s :=
  Arrays.read_congr _ _ s h

theorem Memory.readVals_congr (mem mem' : Memory) (s : Slice)
    (h : mem'.vals s.arr = mem.vals s.arr) : mem'.readVals s = mem.readVals s :=
  Arrays.read_congr _ _ s h

theorem appendStr_read (mem : Memory) (s : Slice) (x : String) :
    (mem.appendStr s x).1.readStrs (mem.appendStr s x).2 = mem.readStrs s ++ [x] :=
  goAppend_read "" mem.grow mem.strs mem.next s x

theorem appendStr_strs (mem : Memory) (s : Slice) (x : String) (b : Nat) (hb : b < mem.next)
    (hq : s.len < s.cap → s.arr ≠ b) : (mem.appendStr s x).1.strs b = mem.strs b :=
  goAppend_frame "" mem.grow mem.strs mem.next s x b hb hq

theorem appendStr_vals (mem : Memory) (s : Slice) (x : String) :
    (mem.appendStr s x).1.vals = mem.vals := rfl

theorem appendStr_grow (mem : Memory) (s : Slice) (x : String) :
    (mem.appendStr s x).1.grow = mem.grow := rfl

theorem appendStr_next (mem : Memory) (s : Slice) (x : String) :
    mem.next ≤ (mem.appendStr s x).1.next :=
  goAppend_next "" mem.grow mem.strs mem.next s x

/-- After `append` the resulting slice shares no array with an array `b` that was
allocated before and in which its argument had no spare capacity. -/
theorem appendStr_arr_ne (mem : Memory) (s : Slice) (x : String) (b : Nat)
    (hb : b < mem.next) (hq : s.len < s.cap → s.arr ≠ b) :
    (mem.appendStr s x).2.arr ≠ b := by
  rcases goAppend_arr "" mem.grow mem.strs mem.next s x with ⟨h1, h2, _⟩ | ⟨h1, _⟩
  · show (goAppend "" mem.grow mem.strs mem.next s x).2.2.arr ≠ b
    rw [h1]
    exact hq h2
  · show (goAppend "" mem.grow mem.strs mem.next s x).2.2.arr ≠ b
    rw [h1]
    exact Ne.symm (Nat.ne_of_lt hb)

theorem appendStr_arr_lt (mem : Memory) (s : Slice) (x : String) (hs : s.arr < mem.next) :
    (mem.appendStr s x).2.arr < (mem.appendStr s x).1.next := by
  show (goAppend "" mem.grow mem.strs mem.next s x).2.2.arr
    < (goAppend "" mem.grow mem.strs mem.next s x).2.1
  rcases goAppend_arr "" mem.grow mem.strs mem.next s x with ⟨h1, _, h3⟩ | ⟨h1, h3⟩
  · rw [h1, h3]
    exact hs
  · rw [h1, h3]
    exact Nat.lt_succ_self _

theorem appendVal_read (mem : Memory) (s : Slice) (x : Value) :
    (mem.appendVal s x).1.readVals (mem.appendVal s x).2 = mem.readVals s ++ [x] :=
  goAppend_read Value.nil mem.grow mem.vals mem.next s x

theorem appendVal_vals (mem : Memory) (s : Slice) (x : Value) (b : Nat) (hb : b < mem.next)
    (hq : s.len < s.cap → s.arr ≠ b) : (mem.appendVal s x).1.vals b = mem.vals b :=
  goAppend_frame Value.nil mem.grow mem.vals mem.next s x b hb hq

theorem appendVal_strs (mem : Memory) (s : Slice) (x : Value) :
    (mem.appendVal s x).1.strs = mem.strs := rfl

theorem appendVal_grow (mem : Memory) (s : Slice) (x : Value) :
    (mem.appendVal s x).1.grow = mem.grow := rfl

theorem appendVal_next (mem : Memory) (s : Slice) (x : Value) :
    mem.next ≤ (mem.appendVal s x).1.next :=
  goAppend_next Value.nil mem.grow mem.vals mem.next s x

theorem appendVal_arr_ne (mem : Memory) (s : Slice) (x : Value) (b : Nat)
    (hb : b < mem.next) (hq : s.len < s.cap → s.arr ≠ b) :
    (mem.appendVal s x).2.arr ≠ b := by
  rcases goAppend_arr Value.nil mem.grow mem.vals mem.next s x with ⟨h1, h2, _⟩ | ⟨h1, _⟩
  · show (goAppend Value.nil mem.grow mem.vals mem.next s x).2.2.arr ≠ b
    rw [h1]
    exact hq h2
  · show (goAppend Value.nil mem.grow mem.vals mem.next s x).2.2.arr ≠ b
    rw [h1]
    exact Ne.symm (Nat.ne_of_lt hb)

theorem appendVal_arr_lt (mem : Memory) (s : Slice) (x : Value) (hs : s.arr < mem.next) :
    (mem.appendVal s x).2.arr < (mem.appendVal s x).1.next := by
  show (goAppend Value.nil mem.grow mem.vals mem.next s x).2.2.arr
    < (goAppend Value.nil mem.grow mem.vals mem.next s x).2.1
  rcases goAppend_arr Value.nil mem.grow mem.vals mem.next s x with ⟨h1, _, h3⟩ | ⟨h1, h3⟩
  · rw [h1, h3]
    exact hs
  · rw [h1, h3]
    exact Nat.lt_succ_self _

theorem makeVals_read (mem : Memory) (xs : List Value) (cap : Nat) :
    (mem.makeVals xs cap).1.readVals (mem.makeVals xs cap).2 = xs :=
  Arrays.read_new mem.vals mem.next xs Value.nil _

theorem makeVals_vals (mem : Memory) (xs : List Value) (cap : Nat) (b : Nat)
    (hb : b < mem.next) : (mem.makeVals xs cap).1.vals b = mem.vals b :=
  Arrays.new_other mem.vals mem.next xs Value.nil b (Nat.ne_of_lt hb)

/-! ## The string union -/

theorem keepFirst_filter (p : String → Bool) : ∀ l : List String,
    keepFirst (l.filter p) = (keepFirst l).filter p
  | [] => rfl
  | x :: xs => by
    by_cases hx : p x = true
    · simp only [List.filter_cons, hx, if_true, keepFirst, keepFirst_filter p xs,
        List.filter_filter]
      congr 1
      apply List.filter_congr
      intro y _
      exact Bool.and_comm _ _
    · simp only [List.filter_cons, hx, keepFirst, List.filter_filter]
      simp only [Bool.false_eq_true, if_false]
      rw [keepFirst_filter p xs]
      apply List.filter_congr
      intro y _
      by_cases hy : y = x
      · subst hy
        simp [hx]
      · simp [hy]

theorem mem_keepFirst (x : String) : ∀ l : List String, x ∈ keepFirst l ↔ x ∈ l
  | [] => by simp [keepFirst]
  | y :: ys => by
    simp only [keepFirst, List.mem_cons, List.mem_filter, mem_keepFirst x ys, ne_eq,
      decide_not, Bool.not_eq_true', decide_eq_false_iff_not]
    by_cases h : x = y <;> simp [h]

theorem keepFirst_nodup : ∀ l : List String, (keepFirst l).Nodup
  | [] => by simp [keepFirst]
  | y :: ys => by
    simp only [keepFirst, List.nodup_cons, List.mem_filter, ne_eq, not_true_eq_false,
      decide_False, Bool.false_eq_true, and_false, not_false_eq_true, true_and]
    exact (keepFirst_nodup ys).filter _

theorem keepFirst_sublist : ∀ l : List String, (keepFirst l).Sublist l
  | [] => by simp [keepFirst]
  | y :: ys => by
    simp only [keepFirst]
    exact ((List.filter_sublist _).trans (keepFirst_sublist ys)).cons₂ y

/-- The nested loops of the `$union` case compute the order-preserving union. -/
theorem unionList_eq_unionSpec : ∀ (inc a : List String),
    unionList a inc = unionSpec a inc
  | [], a => by simp [unionList, unionSpec, keepFirst]
  | x :: xs, a => by
    unfold unionList
    by_cases hx : x ∈ a
    · have h1 : (a.any fun oldVal => oldVal == x) = true := by
        simp only [List.any_eq_true, beq_iff_eq]
        exact ⟨x, hx, rfl⟩
      rw [if_pos h1, unionList_eq_unionSpec xs a]
      simp [unionSpec, List.filter_cons, hx]
    · have h1 : ¬ (a.any fun oldVal => oldVal == x) = true := by
        simp only [List.any_eq_true, beq_iff_eq, not_exists, not_and]
        intro y hy hyx
        exact hx (hyx ▸ hy)
      rw [if_neg h1, unionList_eq_unionSpec xs (a ++ [x])]
      simp only [unionSpec, List.filter_cons, hx, not_false_eq_true, decide_True, if_true,
        keepFirst, List.append_assoc, List.singleton_append]
      congr 2
      rw [← keepFirst_filter, List.filter_filter]
      congr 1
      apply List.filter_congr
      intro y _
      simp [List.mem_append, not_or, and_comm]

theorem mem_unionList (old inc : List String) (x : String) :
    x ∈ unionList old inc ↔ x ∈ old ∨ x ∈ inc := by
  rw [unionList_eq_unionSpec, unionSpec, List.mem_append, mem_keepFirst, List.mem_filter]
  by_cases h : x ∈ old <;> simp [h]

theorem unionList_nodup (old inc : List String) (h : old.Nodup) :
    (unionList old inc).Nodup := by
  rw [unionList_eq_unionSpec, unionSpec]
  refine List.nodup_append.2 ⟨h, keepFirst_nodup _, ?_⟩
  intro x hx hx'
  rw [mem_keepFirst, List.mem_filter] at hx'
  simp [hx] at hx'

theorem incFrom_succ (mem : Memory) (inc : Slice) (i n : Nat) :
    incFrom mem inc i (n + 1)
      = mem.strs inc.arr (inc.off + i) :: incFrom mem inc (i + 1) n := by
  simp only [incFrom, List.range_succ_eq_map, List.map_cons, List.map_map, Nat.add_zero]
  congr 1
  apply List.map_congr_left
  intro j _
  simp only [Function.comp, Nat.succ_eq_add_one]
  congr 1
  omega

theorem incFrom_all (mem : Memory) (inc : Slice) :
    incFrom mem inc 0 inc.len = mem.readStrs inc := by
  simp [incFrom, Memory.readStrs, Arrays.read]

theorem incFrom_congr (mem mem' : Memory) (inc : Slice) (i n : Nat)
    (h : mem'.strs inc.arr = mem.strs inc.arr) : incFrom mem' inc i n = incFrom mem inc i n := by
  unfold incFrom
  rw [h]

theorem any_eq_iff_mem (a : List String) (x : String) :
    (a.any (fun oldVal => oldVal == x)) = true ↔ x ∈ a := by
  simp only [List.any_eq_true, beq_iff_eq]
  exact ⟨fun ⟨y, hy, hyx⟩ => hyx ▸ hy, fun h => ⟨x, h, rfl⟩⟩

/-- The loop over the incoming slice leaves an allocated array as it was, unless the stored
slice has spare capacity in it. -/
theorem unionStringsFrom_strs (inc : Slice) : ∀ (n i : Nat) (mem : Memory) (a : Slice)
    (b : Nat), b < mem.next → (a.len < a.cap → a.arr ≠ b) →
    (unionStringsFrom inc n i mem a).1.strs b = mem.strs b
  | 0, _, _, _, _, _, _ => rfl
  | n + 1, i, mem, a, b, hb, hq => by
    unfold unionStringsFrom
    split_ifs
    · exact unionStringsFrom_strs inc n (i + 1) mem a b hb hq
    · rw [unionStringsFrom_strs inc n (i + 1) _ _ b
        (Nat.lt_of_lt_of_le hb (appendStr_next mem a _))
        (fun _ => appendStr_arr_ne mem a _ b hb hq)]
      exact appendStr_strs mem a _ b hb hq

theorem unionStringsFrom_vals (inc : Slice) : ∀ (n i : Nat) (mem : Memory) (a : Slice),
    (unionStringsFrom inc n i mem a).1.vals = mem.vals
  | 0, _, _, _ => rfl
  | n + 1, i, mem, a => by
    unfold unionStringsFrom
    split_ifs
    · exact unionStringsFrom_vals inc n (i + 1) mem a
    · rw [unionStringsFrom_vals inc n (i + 1) _ _]
      rfl

theorem unionStringsFrom_grow (inc : Slice) : ∀ (n i : Nat) (mem : Memory) (a : Slice),
    (unionStringsFrom inc n i mem a).1.grow = mem.grow
  | 0, _, _, _ => rfl
  | n + 1, i, mem, a => by
    unfold unionStringsFrom
    split_ifs
    · exact unionStringsFrom_grow inc n (i + 1) mem a
    · rw [unionStringsFrom_grow inc n (i + 1) _ _]
      rfl

theorem unionStringsFrom_next (inc : Slice) : ∀ (n i : Nat) (mem : Memory) (a : Slice),
    mem.next ≤ (unionStringsFrom inc n i mem a).1.next
  | 0, _, _, _ => Nat.le_refl _
  | n + 1, i, mem, a => by
    unfold unionStringsFrom
    split_ifs
    · exact unionStringsFrom_next inc n (i + 1) mem a
    · exact Nat.le_trans (appendStr_next mem a _) (unionStringsFrom_next inc n (i + 1) _ _)

theorem unionStringsFrom_arr_lt (inc : Slice) : ∀ (n i : Nat) (mem : Memory) (a : Slice),
    a.arr < mem.next →
    (unionStringsFrom inc n i mem a).2.arr < (unionStringsFrom inc n i mem a).1.next
  | 0, _, _, _, h => h
  | n + 1, i, mem, a, h => by
    unfold unionStringsFrom
    split_ifs
    · exact unionStringsFrom_arr_lt inc n (i + 1) mem a h
    · exact unionStringsFrom_arr_lt inc n (i + 1) _ _ (appendStr_arr_lt mem a _ h)

/-- The slice that the loop leaves has no spare capacity in an array that was allocated
before and in which the stored slice had none. -/
theorem unionStringsFrom_quiet (inc : Slice) : ∀ (n i : Nat) (mem : Memory) (a : Slice)
    (b : Nat), b < mem.next → (a.len < a.cap → a.arr ≠ b) →
    ((unionStringsFrom inc n i mem a).2.len < (unionStringsFrom inc n i mem a).2.cap →
      (unionStringsFrom inc n i mem a).2.arr ≠ b)
  | 0, _, _, _, _, _, hq => hq
  | n + 1, i, mem, a, b, hb, hq => by
    unfold unionStringsFrom
    split_ifs
    · exact unionStringsFrom_quiet inc n (i + 1) mem a b hb hq
    · exact unionStringsFrom_quiet inc n (i + 1) _ _ b
        (Nat.lt_of_lt_of_le hb (appendStr_next mem a _))
        (fun _ => appendStr_arr_ne mem a _ b hb hq)

theorem appendStr_arr (mem : Memory) (s : Slice) (x : String) :
    (mem.appendStr s x).2.arr = s.arr ∨ (mem.appendStr s x).2.arr = mem.next := by
  rcases goAppend_arr "" mem.grow mem.strs mem.next s x with ⟨h1, _, _⟩ | ⟨h1, _⟩
  · exact Or.inl h1
  · exact Or.inr h1

/-- The slice that the loop leaves lies in the array of the stored slice or in an array
that was not allocated before. -/
theorem unionStringsFrom_arr (inc : Slice) : ∀ (n i : Nat) (mem : Memory) (a : Slice),
    (unionStringsFrom inc n i mem a).2.arr = a.arr ∨
      mem.next ≤ (unionStringsFrom inc n i mem a).2.arr
  | 0, _, _, _ => Or.inl rfl
  | n + 1, i, mem, a => by
    unfold unionStringsFrom
    split_ifs
    · exact unionStringsFrom_arr inc n (i + 1) mem a
    · rcases unionStringsFrom_arr inc n (i + 1) (mem.appendStr a _).1 (mem.appendStr a _).2
        with h | h
      · rcases appendStr_arr mem a (mem.strs inc.arr (inc.off + i)) with h1 | h1
        · exact Or.inl (h.trans h1)
        · exact Or.inr (by rw [h, h1])
      · exact Or.inr (Nat.le_trans (appendStr_next mem a _) h)

/-- The loop over the incoming slice computes the nested loops on the element sequences,
when the stored slice has no spare capacity in the array of the incoming one. -/
theorem unionStringsFrom_read (inc : Slice) : ∀ (n i : Nat) (mem : Memory) (a : Slice),
    inc.arr < mem.next → (a.len < a.cap → a.arr ≠ inc.arr) →
    (unionStringsFrom inc n i mem a).1.readStrs (unionStringsFrom inc n i mem a).2
      = unionList (mem.readStrs a) (incFrom mem inc i n)
  | 0, _, _, _, _, _ => rfl
  | n + 1, i, mem, a, hi, hq => by
    rw [incFrom_succ]
    unfold unionStringsFrom unionList
    split_ifs with h
    · exact unionStringsFrom_read inc n (i + 1) mem a hi hq
    · rw [unionStringsFrom_read inc n (i + 1) _ _
        (Nat.lt_of_lt_of_le hi (appendStr_next mem a _))
        (fun _ => appendStr_arr_ne mem a _ inc.arr hi hq), appendStr_read,
        incFrom_congr mem _ inc (i + 1) n (appendStr_strs mem a _ inc.arr hi hq)]

/-- The loop over the incoming slice changes nothing when the stored slice has all the
incoming elements. -/
theorem unionStringsFrom_noop (inc : Slice) : ∀ (n i : Nat) (mem : Memory) (a : Slice),
    (∀ x ∈ incFrom mem inc i n, x ∈ mem.readStrs a) →
    unionStringsFrom inc n i mem a = (mem, a)
  | 0, _, _, _, _ => rfl
  | n + 1, i, mem, a, h => by
    rw [incFrom_succ] at h
    unfold unionStringsFrom
    rw [if_pos ((any_eq_iff_mem _ _).2 (h _ (List.mem_cons_self _ _)))]
    exact unionStringsFrom_noop inc n (i + 1) mem a
      (fun x hx => h x (List.mem_cons_of_mem _ hx))

theorem unionStrings_read (mem : Memory) (a inc : Slice) (hi : inc.arr < mem.next)
    (hq : a.len < a.cap → a.arr ≠ inc.arr) :
    (unionStrings mem a inc).1.readStrs (unionStrings mem a inc).2
      = unionList (mem.readStrs a) (mem.readStrs inc) := by
  unfold unionStrings
  rw [unionStringsFrom_read inc inc.len 0 mem a hi hq, incFrom_all]

theorem unionStrings_noop (mem : Memory) (a inc : Slice)
    (h : ∀ x ∈ mem.readStrs inc, x ∈ mem.readStrs a) : unionStrings mem a inc = (mem, a) := by
  unfold unionStrings
  exact unionStringsFrom_noop inc inc.len 0 mem a (by rw [incFrom_all]; exact h)

/-! ## Lemmas on maps -/

theorem put_same {α : Type} (m : GoMap α) (k : String) (v : α) : m.put k v k = some v := by
  simp [GoMap.put]

theorem put_other {α : Type} (m : GoMap α) (k k' : String) (v : α) (h : k' ≠ k) :
    m.put k v k' = m k' := by
  simp [GoMap.put, h]

theorem put_self {α : Type} (m : GoMap α) (k : String) (v : α) (h : m k = some v) :
    m.put k v = m := by
  funext k'
  by_cases hk : k' = k
  · rw [hk, put_same, h]
  · rw [put_other _ _ _ _ hk]

theorem lookup_of_mem : ∀ (l : List (String × Value)) (k : String) (v : Value),
    (l.map Prod.fst).Nodup → (k, v) ∈ l → lookup k l = some v
  | [], _, _, _, h => by simp at h
  | (k0, v0) :: rest, k, v, hnd, h => by
    simp only [List.map_cons, List.nodup_cons] at hnd
    simp only [List.mem_cons, Prod.mk.injEq] at h
    rcases h with ⟨rfl, rfl⟩ | h
    · simp [lookup]
    · have hne : k0 ≠ k := by
        rintro rfl
        exact hnd.1 (List.mem_map.2 ⟨(k0, v), h, rfl⟩)
      simp only [lookup, hne, if_false]
      exact lookup_of_mem rest k v hnd.2 h

theorem mem_strsOf (v : Option Value) (s : Slice) : s ∈ strsOf v ↔ v = some (Value.strs s) := by
  cases v with
  | none => simp [strsOf]
  | some x => cases x <;> simp [strsOf]

theorem mem_seqOf (v : Option Value) (s : Slice) : s ∈ seqOf v ↔ v = some (Value.seq s) := by
  cases v with
  | none => simp [seqOf]
  | some x => cases x <;> simp [seqOf]

/-! ## The loop of the `$union` case -/

theorem unionStrings_strs (mem : Memory) (a inc : Slice) (b : Nat) (hb : b < mem.next)
    (hq : a.len < a.cap → a.arr ≠ b) : (unionStrings mem a inc).1.strs b = mem.strs b :=
  unionStringsFrom_strs inc inc.len 0 mem a b hb hq

theorem unionStrings_vals (mem : Memory) (a inc : Slice) :
    (unionStrings mem a inc).1.vals = mem.vals :=
  unionStringsFrom_vals inc inc.len 0 mem a

theorem unionStrings_grow (mem : Memory) (a inc : Slice) :
    (unionStrings mem a inc).1.grow = mem.grow :=
  unionStringsFrom_grow inc inc.len 0 mem a

theorem unionStrings_next (mem : Memory) (a inc : Slice) :
    mem.next ≤ (unionStrings mem a inc).1.next :=
  unionStringsFrom_next inc inc.len 0 mem a

theorem unionStrings_arr_lt (mem : Memory) (a inc : Slice) (h : a.arr < mem.next) :
    (unionStrings mem a inc).2.arr < (unionStrings mem a inc).1.next :=
  unionStringsFrom_arr_lt inc inc.len 0 mem a h

theorem unionStrings_arr (mem : Memory) (a inc : Slice) :
    (unionStrings mem a inc).2.arr = a.arr ∨ mem.next ≤ (unionStrings mem a inc).2.arr :=
  unionStringsFrom_arr inc inc.len 0 mem a

theorem unionLoop_frame (uP : List (String × Value)) : ∀ (es : List (String × Value))
    (mem : Memory) (P : GoMap Value) (k : String), k ∉ es.map Prod.fst →
    (unionLoop uP es mem P).1.2 k = P k
  | [], _, _, _, _ => rfl
  | (k0, v0) :: rest, mem, P, k, hk => by
    simp only [List.map_cons, List.mem_cons, not_or] at hk
    unfold unionLoop
    split
    · rw [unionLoop_frame uP rest _ _ k hk.2, put_other _ _ _ _ hk.1]
    · rw [unionLoop_frame uP rest _ _ k hk.2, put_other _ _ _ _ hk.1]
    · split
      · rw [unionLoop_frame uP rest _ _ k hk.2, put_other _ _ _ _ hk.1]
      · rfl
    · rfl

/-- When the `$union` loop returns `nil`, a key that was absent or held `nil` holds the
incoming value. -/
theorem unionLoop_verbatim (uP : List (String × Value)) : ∀ (es : List (String × Value))
    (mem : Memory) (P : GoMap Value) (k : String) (v : Value),
    (es.map Prod.fst).Nodup → (k, v) ∈ es →
    (unionLoop uP es mem P).2 = Outcome.returned none →
    (P k = none ∨ P k = some Value.nil) → (unionLoop uP es mem P).1.2 k = some v
  | [], _, _, _, _, _, h, _, _ => by simp at h
  | (k0, v0) :: rest, mem, P, k, v, hnd, hmem, hok, habs => by
    simp only [List.map_cons, List.nodup_cons] at hnd
    simp only [List.mem_cons, Prod.mk.injEq] at hmem
    rcases hmem with ⟨rfl, rfl⟩ | hmem
    · unfold unionLoop
      rcases habs with h0 | h0
      · simp only [h0]
        rw [unionLoop_frame uP rest _ _ k hnd.1, put_same]
      · simp only [h0]
        rw [unionLoop_frame uP rest _ _ k hnd.1, put_same]
    · have hne : k ≠ k0 := by
        rintro rfl
        exact hnd.1 (List.mem_map.2 ⟨(k, v), hmem, rfl⟩)
      have habs1 : ∀ w, (P.put k0 w) k = none ∨ (P.put k0 w) k = some Value.nil := fun w => by
        rw [put_other _ _ _ _ hne]
        exact habs
      unfold unionLoop at hok ⊢
      split at hok
      · exact unionLoop_verbatim uP rest _ _ k v hnd.2 hmem hok (habs1 _)
      · exact unionLoop_verbatim uP rest _ _ k v hnd.2 hmem hok (habs1 _)
      · split at hok
        · exact unionLoop_verbatim uP rest _ _ k v hnd.2 hmem hok (habs1 _)
        · simp at hok
      · simp at hok

/-- The `$union` loop returns `nil` when it only visits absent keys. -/
theorem unionLoop_absent (uP : List (String × Value)) : ∀ (es : List (String × Value))
    (mem : Memory) (P : GoMap Value), (es.map Prod.fst).Nodup →
    (∀ k ∈ es.map Prod.fst, P k = none) →
    (unionLoop uP es mem P).2 = Outcome.returned none
  | [], _, _, _, _ => rfl
  | (k0, v0) :: rest, mem, P, hnd, habs => by
    simp only [List.map_cons, List.nodup_cons] at hnd
    have h0 : P k0 = none := habs k0 (by simp)
    unfold unionLoop
    simp only [h0]
    apply unionLoop_absent uP rest _ _ hnd.2
    intro k hk
    have hne : k ≠ k0 := fun h => hnd.1 (h ▸ hk)
    rw [put_other _ _ _ _ hne]
    exact habs k (by simp [hk])

/-- The `$union` loop never changes a stored value that is neither `nil` nor a string
sequence. -/
theorem unionLoop_keeps (uP : List (String × Value)) : ∀ (es : List (String × Value))
    (mem : Memory) (P : GoMap Value) (k : String) (x : Value), P k = some x →
    x ≠ Value.nil → (∀ a, x ≠ Value.strs a) → (unionLoop uP es mem P).1.2 k = some x
  | [], _, _, _, _, h, _, _ => h
  | (k0, v0) :: rest, mem, P, k, x, hx, hnil, hstrs => by
    have hput : ∀ w, k0 ≠ k → (P.put k0 w) k = some x := fun w hne => by
      rw [put_other _ _ _ _ (Ne.symm hne), hx]
    have hk0 : ∀ y, P k0 = y → y ≠ some x → k0 ≠ k := fun y hy hne he => by
      rw [he, hx] at hy
      exact hne hy.symm
    unfold unionLoop
    split
    · next h0 =>
      exact unionLoop_keeps uP rest _ _ k x (hput _ (hk0 _ h0 (by simp))) hnil hstrs
    · next h0 =>
      exact unionLoop_keeps uP rest _ _ k x
        (hput _ (hk0 _ h0 (fun h => hnil (Option.some.inj h).symm))) hnil hstrs
    · next a h0 =>
      have hne := hk0 _ h0 (fun h => hstrs a (Option.some.inj h).symm)
      split
      · exact unionLoop_keeps uP rest _ _ k x (hput _ hne) hnil hstrs
      · exact hx
    · exact hx

/-- The `$union` loop returns its error when it is to visit a key whose stored value is
neither `nil` nor a string sequence, and no type assertion fails on the way. -/
theorem unionLoop_error (uP : List (String × Value)) : ∀ (es : List (String × Value))
    (mem : Memory) (P : GoMap Value) (k : String) (x : Value), (es.map Prod.fst).Nodup →
    (∀ e ∈ es, lookup e.1 uP = some e.2) →
    (∀ e ∈ es, ∀ a, P e.1 = some (Value.strs a) → ∃ inc, e.2 = Value.strs inc) →
    k ∈ es.map Prod.fst → P k = some x → x ≠ Value.nil → (∀ a, x ≠ Value.strs a) →
    (unionLoop uP es mem P).2
      = Outcome.returned (some "Can only do $union operation on an array")
  | [], _, _, _, _, _, _, _, hk, _, _, _ => by simp at hk
  | (k0, v0) :: rest, mem, P, k, x, hnd, hlk, hty, hk, hx, hnil, hstrs => by
    simp only [List.map_cons, List.nodup_cons] at hnd
    have hlk0 : lookup k0 uP = some v0 := hlk (k0, v0) (List.mem_cons_self _ _)
    have hlk1 : ∀ e ∈ rest, lookup e.1 uP = some e.2 :=
      fun e he => hlk e (List.mem_cons_of_mem _ he)
    have hne1 : ∀ e ∈ rest, e.1 ≠ k0 := fun e he h =>
      hnd.1 (List.mem_map.2 ⟨e, he, h⟩)
    have hty1 : ∀ w, ∀ e ∈ rest, ∀ a, (P.put k0 w) e.1 = some (Value.strs a) →
        ∃ inc, e.2 = Value.strs inc := fun w e he a h => by
      rw [put_other _ _ _ _ (hne1 e he)] at h
      exact hty e (List.mem_cons_of_mem _ he) a h
    have hrest : ∀ mem1 w, k0 ≠ k → (unionLoop uP rest mem1 (P.put k0 w)).2
        = Outcome.returned (some "Can only do $union operation on an array") :=
      fun mem1 w hne => by
        have hk1 : k ∈ rest.map Prod.fst := by
          simp only [List.map_cons, List.mem_cons] at hk
          rcases hk with h | h
          · exact absurd h.symm hne
          · exact h
        exact unionLoop_error uP rest mem1 _ k x hnd.2 hlk1 (hty1 w) hk1
          (by rw [put_other _ _ _ _ (Ne.symm hne), hx]) hnil hstrs
    have hk0 : ∀ y, P k0 = y → y ≠ some x → k0 ≠ k := fun y hy hne he => by
      rw [he, hx] at hy
      exact hne hy.symm
    unfold unionLoop
    split
    · next h0 => exact hrest _ _ (hk0 _ h0 (by simp))
    · next h0 => exact hrest _ _ (hk0 _ h0 (fun h => hnil (Option.some.inj h).symm))
    · next a h0 =>
      have hne := hk0 _ h0 (fun h => hstrs a (Option.some.inj h).symm)
      obtain ⟨inc, hinc⟩ := hty (k0, v0) (List.mem_cons_self _ _) a h0
      simp only [] at hinc
      rw [hlk0, hinc]
      exact hrest _ _ hne
    · rfl

/-- The error that the `$union` loop returns is always the same. -/
theorem unionLoop_error_msg (uP : List (String × Value)) :
    ∀ (es : List (String × Value)) (mem : Memory) (P : GoMap Value) (e : String),
    (unionLoop uP es mem P).2 = Outcome.returned (some e) →
    e = "Can only do $union operation on an array"
  | [], _, _, _, h => by simp [unionLoop] at h
  | (k0, v0) :: rest, mem, P, e, h => by
    unfold unionLoop at h
    split at h
    · exact unionLoop_error_msg uP rest _ _ e h
    · exact unionLoop_error_msg uP rest _ _ e h
    · split at h
      · exact unionLoop_error_msg uP rest _ _ e h
      · simp at h
    · simp only [Outcome.returned.injEq, Option.some.injEq] at h
      exact h.symm

theorem strsQuiet_put_rest (P : GoMap Value) (k0 : String) (w : Value) (rest : List String)
    (b : Nat) (hk0 : k0 ∉ rest) (hq : StrsQuiet P rest b) : StrsQuiet (P.put k0 w) rest b := by
  intro k hk s hs
  have hne : k ≠ k0 := fun h => hk0 (h ▸ hk)
  rw [put_other _ _ _ _ hne] at hs
  exact hq k hk s hs

theorem strsQuiet_tail (P : GoMap Value) (k0 : String) (rest : List String) (b : Nat)
    (hq : StrsQuiet P (k0 :: rest) b) : StrsQuiet P rest b :=
  fun k hk s hs => hq k (List.mem_cons_of_mem _ hk) s hs

theorem strsAllocated_put_rest (mem mem1 : Memory) (P : GoMap Value) (k0 : String) (w : Value)
    (rest : List String) (hk0 : k0 ∉ rest) (hle : mem.next ≤ mem1.next)
    (ha : StrsAllocated mem P (k0 :: rest)) : StrsAllocated mem1 (P.put k0 w) rest := by
  intro k hk s hs
  have hne : k ≠ k0 := fun h => hk0 (h ▸ hk)
  rw [put_other _ _ _ _ hne] at hs
  exact Nat.lt_of_lt_of_le (ha k (List.mem_cons_of_mem _ hk) s hs) hle

/-- The `$union` loop leaves an allocated string array as it was, unless a string sequence
stored under one of the keys it visits has spare capacity in it. -/
theorem unionLoop_strs (uP : List (String × Value)) : ∀ (es : List (String × Value))
    (mem : Memory) (P : GoMap Value) (b : Nat), (es.map Prod.fst).Nodup → b < mem.next →
    StrsQuiet P (es.map Prod.fst) b → (unionLoop uP es mem P).1.1.strs b = mem.strs b
  | [], _, _, _, _, _, _ => rfl
  | (k0, v0) :: rest, mem, P, b, hnd, hb, hq => by
    simp only [List.map_cons, List.nodup_cons] at hnd
    simp only [List.map_cons] at hq
    have hq1 : ∀ w, StrsQuiet (P.put k0 w) (rest.map Prod.fst) b :=
      fun w => strsQuiet_put_rest P k0 w _ b hnd.1 (strsQuiet_tail P k0 _ b hq)
    unfold unionLoop
    split
    · exact unionLoop_strs uP rest mem _ b hnd.2 hb (hq1 _)
    · exact unionLoop_strs uP rest mem _ b hnd.2 hb (hq1 _)
    · next a h0 =>
      split
      · next inc hl =>
        have hqa : a.len < a.cap → a.arr ≠ b :=
          hq k0 (List.mem_cons_self _ _) a ((mem_strsOf _ _).2 h0)
        rw [unionLoop_strs uP rest _ _ b hnd.2
          (Nat.lt_of_lt_of_le hb (unionStrings_next mem a inc)) (hq1 _)]
        exact unionStrings_strs mem a inc b hb hqa
      · rfl
    · rfl

/-- The `$union` loop leaves the arrays of the generic sequences as they were. -/
theorem unionLoop_vals (uP : List (String × Value)) : ∀ (es : List (String × Value))
    (mem : Memory) (P : GoMap Value), (unionLoop uP es mem P).1.1.vals = mem.vals
  | [], _, _ => rfl
  | (k0, v0) :: rest, mem, P => by
    unfold unionLoop
    split
    · exact unionLoop_vals uP rest mem _
    · exact unionLoop_vals uP rest mem _
    · split
      · rw [unionLoop_vals uP rest _ _, unionStrings_vals]
      · rfl
    · rfl

theorem unionLoop_grow (uP : List (String × Value)) : ∀ (es : List (String × Value))
    (mem : Memory) (P : GoMap Value), (unionLoop uP es mem P).1.1.grow = mem.grow
  | [], _, _ => rfl
  | (k0, v0) :: rest, mem, P => by
    unfold unionLoop
    split
    · exact unionLoop_grow uP rest mem _
    · exact unionLoop_grow uP rest mem _
    · split
      · rw [unionLoop_grow uP rest _ _, unionStrings_grow]
      · rfl
    · rfl

theorem unionLoop_next (uP : List (String × Value)) : ∀ (es : List (String × Value))
    (mem : Memory) (P : GoMap Value), mem.next ≤ (unionLoop uP es mem P).1.1.next
  | [], _, _ => Nat.le_refl _
  | (k0, v0) :: rest, mem, P => by
    unfold unionLoop
    split
    · exact unionLoop_next uP rest mem _
    · exact unionLoop_next uP rest mem _
    · split
      · exact Nat.le_trans (unionStrings_next mem _ _) (unionLoop_next uP rest _ _)
      · exact Nat.le_refl _
    · exact Nat.le_refl _

/-- When the `$union` loop returns `nil`, every key it visited was absent, held `nil`, or
held a string sequence and came with a string sequence. -/
theorem unionLoop_fine_of_returns (uP : List (String × Value)) :
    ∀ (es : List (String × Value)) (mem : Memory) (P : GoMap Value),
    (es.map Prod.fst).Nodup → (∀ e ∈ es, lookup e.1 uP = some e.2) →
    (unionLoop uP es mem P).2 = Outcome.returned none →
    ∀ e ∈ es, P e.1 = none ∨ P e.1 = some Value.nil ∨
      ∃ a inc, P e.1 = some (Value.strs a) ∧ e.2 = Value.strs inc
  | [], _, _, _, _, _ => by simp
  | (k0, v0) :: rest, mem, P, hnd, hlk, hok => by
    simp only [List.map_cons, List.nodup_cons] at hnd
    have hlk0 : lookup k0 uP = some v0 := hlk (k0, v0) (List.mem_cons_self _ _)
    have hlk1 : ∀ e ∈ rest, lookup e.1 uP = some e.2 :=
      fun e he => hlk e (List.mem_cons_of_mem _ he)
    have hrest : ∀ mem1 w, (unionLoop uP rest mem1 (P.put k0 w)).2 = Outcome.returned none →
        ∀ e ∈ rest, P e.1 = none ∨ P e.1 = some Value.nil ∨
          ∃ a inc, P e.1 = some (Value.strs a) ∧ e.2 = Value.strs inc :=
      fun mem1 w hw e he => by
        have hne : e.1 ≠ k0 := fun h => hnd.1 (List.mem_map.2 ⟨e, he, h⟩)
        have := unionLoop_fine_of_returns uP rest mem1 _ hnd.2 hlk1 hw e he
        rwa [put_other _ _ _ _ hne] at this
    intro e he
    simp only [List.mem_cons] at he
    unfold unionLoop at hok
    split at hok
    · next h0 =>
      rcases he with rfl | he
      · exact Or.inl h0
      · exact hrest _ _ hok e he
    · next h0 =>
      rcases he with rfl | he
      · exact Or.inr (Or.inl h0)
      · exact hrest _ _ hok e he
    · next a h0 =>
      rw [hlk0] at hok
      cases v0 with
      | strs inc =>
        rcases he with rfl | he
        · exact Or.inr (Or.inr ⟨a, inc, h0, rfl⟩)
        · exact hrest _ _ hok e he
      | nil => simp at hok
      | str _ => simp at hok
      | num _ => simp at hok
      | bool _ => simp at hok
      | seq _ => simp at hok
    · simp at hok

/-- When the `$union` loop returns `nil`, a key that held a string sequence `a` and came
with the string sequence `inc` holds a string sequence whose elements are those that the
nested loops give on the elements of `a` and of `inc`, provided that the stored sequences
are allocated and that none of them has spare capacity in the array of `inc` or, for the
other keys, in the array of `a`. -/
theorem unionLoop_contents (uP : List (String × Value)) : ∀ (es : List (String × Value))
    (mem : Memory) (P : GoMap Value) (k : String) (a inc : Slice),
    (es.map Prod.fst).Nodup → (∀ e ∈ es, lookup e.1 uP = some e.2) →
    (k, Value.strs inc) ∈ es → P k = some (Value.strs a) →
    (unionLoop uP es mem P).2 = Outcome.returned none →
    StrsAllocated mem P (es.map Prod.fst) → inc.arr < mem.next →
    StrsQuiet P (es.map Prod.fst) inc.arr →
    StrsQuiet P ((es.map Prod.fst).filter (fun k' => k' ≠ k)) a.arr →
    ∃ a', (unionLoop uP es mem P).1.2 k = some (Value.strs a') ∧
      (unionLoop uP es mem P).1.1.readStrs a'
        = unionList (mem.readStrs a) (mem.readStrs inc)
  | [], _, _, _, _, _, _, _, h, _, _, _, _, _, _ => by simp at h
  | (k0, v0) :: rest, mem, P, k, a, inc, hnd, hlk, hmem, hold, hok, hal, hi, hqi, hqa => by
    simp only [List.map_cons, List.nodup_cons] at hnd
    simp only [List.map_cons] at hal hqi hqa
    have hlk0 : lookup k0 uP = some v0 := hlk (k0, v0) (List.mem_cons_self _ _)
    have hlk1 : ∀ e ∈ rest, lookup e.1 uP = some e.2 :=
      fun e he => hlk e (List.mem_cons_of_mem _ he)
    have hka : a.arr < mem.next := by
      have hk : k ∈ k0 :: rest.map Prod.fst := by
        rcases List.mem_cons.1 hmem with h | h
        · rw [show k = k0 from (Prod.mk.inj h).1]
          exact List.mem_cons_self _ _
        · exact List.mem_cons_of_mem _ (List.mem_map.2 ⟨_, h, rfl⟩)
      exact hal k hk a ((mem_strsOf _ _).2 hold)
    simp only [List.mem_cons, Prod.mk.injEq] at hmem
    rcases hmem with ⟨rfl, rfl⟩ | hmem
    · -- the entry visited now
      have hstep : unionLoop uP ((k, Value.strs inc) :: rest) mem P
          = unionLoop uP rest (unionStrings mem a inc).1
              (P.put k (Value.strs (unionStrings mem a inc).2)) := by
        simp only [unionLoop, hold, hlk0]
      rw [hstep]
      refine ⟨(unionStrings mem a inc).2, ?_, ?_⟩
      · rw [unionLoop_frame uP rest _ _ k hnd.1, put_same]
      · have hquiet : StrsQuiet (P.put k (Value.strs (unionStrings mem a inc).2))
            (rest.map Prod.fst) (unionStrings mem a inc).2.arr := by
          intro k' hk' s hs hspare
          have hne : k' ≠ k := fun h => hnd.1 (h ▸ hk')
          rw [put_other _ _ _ _ hne] at hs
          have h1 : s.arr < mem.next := hal k' (List.mem_cons_of_mem _ hk') s hs
          have h2 : s.arr ≠ a.arr := by
            refine hqa k' ?_ s hs hspare
            simp [List.mem_filter, hne, hk']
          rcases unionStrings_arr mem a inc with h3 | h3
          · rw [h3]
            exact h2
          · exact Nat.ne_of_lt (Nat.lt_of_lt_of_le h1 h3)
        rw [Memory.readStrs_congr (unionStrings mem a inc).1 _ _
          (unionLoop_strs uP rest _ _ _ hnd.2 (unionStrings_arr_lt mem a inc hka) hquiet)]
        exact unionStrings_read mem a inc hi
          (hqi k (List.mem_cons_self _ _) a ((mem_strsOf _ _).2 hold))
    · -- an entry visited later
      have hne : k ≠ k0 := by
        rintro rfl
        exact hnd.1 (List.mem_map.2 ⟨(k, Value.strs inc), hmem, rfl⟩)
      have hold1 : ∀ w, (P.put k0 w) k = some (Value.strs a) := fun w => by
        rw [put_other _ _ _ _ hne]
        exact hold
      have hqi1 : ∀ w, StrsQuiet (P.put k0 w) (rest.map Prod.fst) inc.arr :=
        fun w => strsQuiet_put_rest P k0 w _ _ hnd.1 (strsQuiet_tail P k0 _ _ hqi)
      have hqa1 : ∀ w, StrsQuiet (P.put k0 w)
          ((rest.map Prod.fst).filter (fun k' => k' ≠ k)) a.arr := by
        intro w k' hk' s hs
        have hk'' := (List.mem_filter.1 hk').1
        have hne' : k' ≠ k0 := fun h => hnd.1 (h ▸ hk'')
        rw [put_other _ _ _ _ hne'] at hs
        refine hqa k' ?_ s hs
        rw [List.mem_filter]
        exact ⟨List.mem_cons_of_mem _ hk'', (List.mem_filter.1 hk').2⟩
      have hrest : ∀ (mem1 : Memory) (w : Value), mem.next ≤ mem1.next →
          mem1.strs a.arr = mem.strs a.arr → mem1.strs inc.arr = mem.strs inc.arr →
          (unionLoop uP rest mem1 (P.put k0 w)).2 = Outcome.returned none →
          ∃ a', (unionLoop uP rest mem1 (P.put k0 w)).1.2 k = some (Value.strs a') ∧
            (unionLoop uP rest mem1 (P.put k0 w)).1.1.readStrs a'
              = unionList (mem.readStrs a) (mem.readStrs inc) := by
        intro mem1 w hle hsa hsi hw
        obtain ⟨a', h1, h2⟩ := unionLoop_contents uP rest mem1 (P.put k0 w) k a inc hnd.2 hlk1
          hmem (hold1 w) hw (strsAllocated_put_rest mem mem1 P k0 w _ hnd.1 hle hal)
          (Nat.lt_of_lt_of_le hi hle) (hqi1 w) (hqa1 w)
        refine ⟨a', h1, ?_⟩
        rw [h2, Memory.readStrs_congr mem mem1 a hsa, Memory.readStrs_congr mem mem1 inc hsi]
      unfold unionLoop at hok ⊢
      split at hok
      · exact hrest mem _ (Nat.le_refl _) rfl rfl hok
      · exact hrest mem _ (Nat.le_refl _) rfl rfl hok
      · next s0 h0 =>
        split at hok
        · next inc0 hl0 =>
          have hs0 := (mem_strsOf _ _).2 h0
          have hk0f : k0 ∈ (k0 :: rest.map Prod.fst).filter (fun k' => k' ≠ k) := by
            simp [List.mem_filter, Ne.symm hne]
          exact hrest _ _ (unionStrings_next mem s0 inc0)
            (unionStrings_strs mem s0 inc0 a.arr hka (hqa k0 hk0f s0 hs0))
            (unionStrings_strs mem s0 inc0 inc.arr hi
              (hqi k0 (List.mem_cons_self _ _) s0 hs0)) hok
        · simp at hok
      · simp at hok

/-- When the `$union` loop returns an error, the state is the one it reaches by visiting
the entries before the one it fails at, which all succeed; the failing key holds a value
that is neither `nil` nor a string sequence. -/
theorem unionLoop_stops (uP : List (String × Value)) : ∀ (es : List (String × Value))
    (mem : Memory) (P : GoMap Value) (e : String),
    (unionLoop uP es mem P).2 = Outcome.returned (some e) →
    ∃ pre k v post, es = pre ++ (k, v) :: post ∧
      unionLoop uP pre mem P = ((unionLoop uP es mem P).1, Outcome.returned none) ∧
      ∃ x, (unionLoop uP es mem P).1.2 k = some x ∧ x ≠ Value.nil ∧ ∀ s, x ≠ Value.strs s
  | [], _, _, _, h => by simp [unionLoop] at h
  | (k0, v0) :: rest, mem, P, e, h => by
    have hcont : ∀ (mem1 : Memory) (P1 : GoMap Value),
        (∀ l, unionLoop uP ((k0, v0) :: l) mem P = unionLoop uP l mem1 P1) →
        ∃ pre k v post, (k0, v0) :: rest = pre ++ (k, v) :: post ∧
          unionLoop uP pre mem P
            = ((unionLoop uP ((k0, v0) :: rest) mem P).1, Outcome.returned none) ∧
          ∃ x, (unionLoop uP ((k0, v0) :: rest) mem P).1.2 k = some x ∧ x ≠ Value.nil ∧
            ∀ s, x ≠ Value.strs s := by
      intro mem1 P1 hstep
      rw [hstep] at h
      obtain ⟨pre, k, v, post, hes, hpre, hx⟩ := unionLoop_stops uP rest mem1 P1 e h
      exact ⟨(k0, v0) :: pre, k, v, post, by rw [hes]; rfl, by rw [hstep, hstep]; exact hpre,
        by rw [hstep]; exact hx⟩
    have hstop : ∀ x, P k0 = some x → x ≠ Value.nil → (∀ s, x ≠ Value.strs s) →
        unionLoop uP ((k0, v0) :: rest) mem P
          = ((mem, P), Outcome.returned (some "Can only do $union operation on an array")) →
        ∃ pre k v post, (k0, v0) :: rest = pre ++ (k, v) :: post ∧
          unionLoop uP pre mem P
            = ((unionLoop uP ((k0, v0) :: rest) mem P).1, Outcome.returned none) ∧
          ∃ x, (unionLoop uP ((k0, v0) :: rest) mem P).1.2 k = some x ∧ x ≠ Value.nil ∧
            ∀ s, x ≠ Value.strs s := by
      intro x hx hnil hstrs hres
      refine ⟨[], k0, v0, rest, rfl, ?_, x, ?_, hnil, hstrs⟩
      · rw [hres]
        rfl
      · rw [hres]
        exact hx
    cases h0 : P k0 with
    | none => exact hcont mem (P.put k0 v0) (fun l => by simp only [unionLoop, h0])
    | some c =>
      cases c with
      | nil => exact hcont mem (P.put k0 v0) (fun l => by simp only [unionLoop, h0])
      | strs a =>
        cases hl : lookup k0 uP with
        | none => simp [unionLoop, h0, hl] at h
        | some w =>
          cases w with
          | strs inc =>
            exact hcont (unionStrings mem a inc).1
              (P.put k0 (Value.strs (unionStrings mem a inc).2))
              (fun l => by simp only [unionLoop, h0, hl])
          | nil => simp [unionLoop, h0, hl] at h
          | str _ => simp [unionLoop, h0, hl] at h
          | num _ => simp [unionLoop, h0, hl] at h
          | bool _ => simp [unionLoop, h0, hl] at h
          | seq _ => simp [unionLoop, h0, hl] at h
      | str _ => exact hstop _ h0 (by simp) (by simp) (by simp only [unionLoop, h0])
      | num _ => exact hstop _ h0 (by simp) (by simp) (by simp only [unionLoop, h0])
      | bool _ => exact hstop _ h0 (by simp) (by simp) (by simp only [unionLoop, h0])
      | seq _ => exact hstop _ h0 (by simp) (by simp) (by simp only [unionLoop, h0])

/-- The `$union` loop leaves a state in which every key it visits is present, holds `nil`
only for an incoming `nil`, and holds a string sequence only if that sequence has all the
incoming strings. -/
theorem unionLoop_stable (uP : List (String × Value)) : ∀ (es : List (String × Value))
    (mem : Memory) (Q : GoMap Value),
    (∀ e ∈ es, Q e.1 ≠ none ∧ (Q e.1 = some Value.nil → e.2 = Value.nil) ∧
      (∀ a inc, Q e.1 = some (Value.strs a) → lookup e.1 uP = some (Value.strs inc) →
        ∀ x ∈ mem.readStrs inc, x ∈ mem.readStrs a)) →
    (unionLoop uP es mem Q).1 = (mem, Q)
  | [], _, _, _ => rfl
  | (k0, v0) :: rest, mem, Q, h => by
    obtain ⟨h1, h2, h3⟩ := h (k0, v0) (List.mem_cons_self _ _)
    have hrest := unionLoop_stable uP rest mem Q (fun e he => h e (List.mem_cons_of_mem _ he))
    simp only [] at h1 h2 h3
    unfold unionLoop
    split
    · next h0 => exact absurd h0 h1
    · next h0 =>
      rw [h2 h0, put_self Q k0 Value.nil h0]
      exact hrest
    · next a h0 =>
      split
      · next inc hl =>
        rw [unionStrings_noop mem a inc (h3 a inc h0 hl), put_self Q k0 _ h0]
        exact hrest
      · rfl
    · rfl

/-! ## The loops of the `$set`, `$set_once` and `$append` cases -/

theorem setLoop_frame : ∀ (es : List (String × Value)) (P : GoMap Value) (k : String),
    k ∉ es.map Prod.fst → setLoop es P k = P k
  | [], _, _, _ => rfl
  | (k0, v0) :: rest, P, k, hk => by
    simp only [List.map_cons, List.mem_cons, not_or] at hk
    rw [setLoop, setLoop_frame rest _ k hk.2, put_other _ _ _ _ hk.1]

theorem setLoop_applied : ∀ (es : List (String × Value)) (P : GoMap Value) (k : String)
    (v : Value), (es.map Prod.fst).Nodup → (k, v) ∈ es → setLoop es P k = some v
  | [], _, _, _, _, h => by simp at h
  | (k0, v0) :: rest, P, k, v, hnd, hmem => by
    simp only [List.map_cons, List.nodup_cons] at hnd
    simp only [List.mem_cons, Prod.mk.injEq] at hmem
    rcases hmem with ⟨rfl, rfl⟩ | hmem
    · rw [setLoop, setLoop_frame rest _ k hnd.1, put_same]
    · rw [setLoop, setLoop_applied rest _ k v hnd.2 hmem]

theorem setOnceLoop_frame : ∀ (es : List (String × Value)) (P : GoMap Value) (k : String),
    k ∉ es.map Prod.fst → setOnceLoop es P k = P k
  | [], _, _, _ => rfl
  | (k0, v0) :: rest, P, k, hk => by
    simp only [List.map_cons, List.mem_cons, not_or] at hk
    unfold setOnceLoop
    cases h0 : P k0
    · simp only []
      rw [setOnceLoop_frame rest _ k hk.2, put_other _ _ _ _ hk.1]
    · simp only []
      rw [setOnceLoop_frame rest _ k hk.2]

theorem setOnceLoop_applied : ∀ (es : List (String × Value)) (P : GoMap Value) (k : String)
    (v : Value), (es.map Prod.fst).Nodup → (k, v) ∈ es →
    setOnceLoop es P k = setOnceValue (P k) v
  | [], _, _, _, _, h => by simp at h
  | (k0, v0) :: rest, P, k, v, hnd, hmem => by
    simp only [List.map_cons, List.nodup_cons] at hnd
    simp only [List.mem_cons, Prod.mk.injEq] at hmem
    rcases hmem with ⟨rfl, rfl⟩ | hmem
    · unfold setOnceLoop
      cases h0 : P k
      · simp only []
        rw [setOnceLoop_frame rest _ k hnd.1, put_same]; rfl
      · simp only []
        rw [setOnceLoop_frame rest _ k hnd.1, h0]; rfl
    · have hne : k ≠ k0 := by
        rintro rfl
        exact hnd.1 (List.mem_map.2 ⟨(k, v), hmem, rfl⟩)
      unfold setOnceLoop
      cases h0 : P k0
      · simp only []
        rw [setOnceLoop_applied rest _ k v hnd.2 hmem, put_other _ _ _ _ hne]
      · simp only []
        rw [setOnceLoop_applied rest _ k v hnd.2 hmem]

theorem setLoop_stable : ∀ (es : List (String × Value)) (Q : GoMap Value),
    (∀ e ∈ es, Q e.1 = some e.2) → setLoop es Q = Q
  | [], _, _ => rfl
  | (k0, v0) :: rest, Q, h => by
    rw [setLoop, put_self Q k0 v0 (h (k0, v0) (List.mem_cons_self _ _))]
    exact setLoop_stable rest Q (fun e he => h e (List.mem_cons_of_mem _ he))

theorem setOnceLoop_stable : ∀ (es : List (String × Value)) (Q : GoMap Value),
    (∀ e ∈ es, Q e.1 ≠ none) → setOnceLoop es Q = Q
  | [], _, _ => rfl
  | (k0, v0) :: rest, Q, h => by
    have h0 := h (k0, v0) (List.mem_cons_self _ _)
    unfold setOnceLoop
    cases hq : Q k0 with
    | none => exact absurd hq h0
    | some c =>
      simp only []
      exact setOnceLoop_stable rest Q (fun e he => h e (List.mem_cons_of_mem _ he))

theorem seqsQuiet_put_rest (P : GoMap Value) (k0 : String) (w : Value) (rest : List String)
    (b : Nat) (hk0 : k0 ∉ rest) (hq : SeqsQuiet P rest b) : SeqsQuiet (P.put k0 w) rest b := by
  intro k hk s hs
  have hne : k ≠ k0 := fun h => hk0 (h ▸ hk)
  rw [put_other _ _ _ _ hne] at hs
  exact hq k hk s hs

theorem seqsQuiet_tail (P : GoMap Value) (k0 : String) (rest : List String) (b : Nat)
    (hq : SeqsQuiet P (k0 :: rest) b) : SeqsQuiet P rest b :=
  fun k hk s hs => hq k (List.mem_cons_of_mem _ hk) s hs

theorem seqsAllocated_put_rest (mem mem1 : Memory) (P : GoMap Value) (k0 : String) (w : Value)
    (rest : List String) (hk0 : k0 ∉ rest) (hle : mem.next ≤ mem1.next)
    (ha : SeqsAllocated mem P (k0 :: rest)) : SeqsAllocated mem1 (P.put k0 w) rest := by
  intro k hk s hs
  have hne : k ≠ k0 := fun h => hk0 (h ▸ hk)
  rw [put_other _ _ _ _ hne] at hs
  exact Nat.lt_of_lt_of_le (ha k (List.mem_cons_of_mem _ hk) s hs) hle

theorem appendVal_arr (mem : Memory) (s : Slice) (x : Value) :
    (mem.appendVal s x).2.arr = s.arr ∨ (mem.appendVal s x).2.arr = mem.next := by
  rcases goAppend_arr Value.nil mem.grow mem.vals mem.next s x with ⟨h1, _, _⟩ | ⟨h1, _⟩
  · exact Or.inl h1
  · exact Or.inr h1

theorem appendLoop_frame : ∀ (es : List (String × Value)) (mem : Memory) (P : GoMap Value)
    (k : String), k ∉ es.map Prod.fst → (appendLoop es mem P).1.2 k = P k
  | [], _, _, _, _ => rfl
  | (k0, v0) :: rest, mem, P, k, hk => by
    simp only [List.map_cons, List.mem_cons, not_or] at hk
    unfold appendLoop
    split
    · split
      · rw [appendLoop_frame rest _ _ k hk.2, put_other _ _ _ _ hk.1]
      · rfl
    · rw [appendLoop_frame rest _ _ k hk.2, put_other _ _ _ _ hk.1]

/-- The `$append` loop returns `nil` when every key it visits is absent or holds a generic
sequence. -/
theorem appendLoop_returns : ∀ (es : List (String × Value)) (mem : Memory) (P : GoMap Value),
    (es.map Prod.fst).Nodup →
    (∀ k ∈ es.map Prod.fst, P k = none ∨ ∃ s, P k = some (Value.seq s)) →
    (appendLoop es mem P).2 = Outcome.returned none
  | [], _, _, _, _ => rfl
  | (k0, v0) :: rest, mem, P, hnd, hty => by
    simp only [List.map_cons, List.nodup_cons] at hnd
    have hrest : ∀ mem1 w, (appendLoop rest mem1 (P.put k0 w)).2 = Outcome.returned none :=
      fun mem1 w => by
        apply appendLoop_returns rest _ _ hnd.2
        intro k hk
        have hne : k ≠ k0 := fun h => hnd.1 (h ▸ hk)
        rw [put_other _ _ _ _ hne]
        exact hty k (by simp [hk])
    unfold appendLoop
    rcases hty k0 (by simp) with h0 | ⟨s, h0⟩
    · simp only [h0]
      exact hrest _ _
    · simp only [h0]
      exact hrest _ _

/-- The `$append` loop never returns an error. -/
theorem appendLoop_no_error : ∀ (es : List (String × Value)) (mem : Memory) (P : GoMap Value)
    (e : String), (appendLoop es mem P).2 ≠ Outcome.returned (some e)
  | [], _, _, _ => by simp [appendLoop]
  | (k0, v0) :: rest, mem, P, e => by
    unfold appendLoop
    split
    · split
      · exact appendLoop_no_error rest _ _ e
      · simp
    · exact appendLoop_no_error rest _ _ e

/-- The `$append` loop leaves the arrays of the string sequences as they were. -/
theorem appendLoop_strs : ∀ (es : List (String × Value)) (mem : Memory) (P : GoMap Value),
    (appendLoop es mem P).1.1.strs = mem.strs
  | [], _, _ => rfl
  | (k0, v0) :: rest, mem, P => by
    unfold appendLoop
    split
    · split
      · rw [appendLoop_strs rest _ _]
        rfl
      · rfl
    · rw [appendLoop_strs rest _ _]
      rfl

theorem appendLoop_grow : ∀ (es : List (String × Value)) (mem : Memory) (P : GoMap Value),
    (appendLoop es mem P).1.1.grow = mem.grow
  | [], _, _ => rfl
  | (k0, v0) :: rest, mem, P => by
    unfold appendLoop
    split
    · split
      · rw [appendLoop_grow rest _ _]
        rfl
      · rfl
    · rw [appendLoop_grow rest _ _]
      rfl

theorem makeVals_next (mem : Memory) (xs : List Value) (cap : Nat) :
    mem.next ≤ (mem.makeVals xs cap).1.next := Nat.le_succ _

theorem appendLoop_next : ∀ (es : List (String × Value)) (mem : Memory) (P : GoMap Value),
    mem.next ≤ (appendLoop es mem P).1.1.next
  | [], _, _ => Nat.le_refl _
  | (k0, v0) :: rest, mem, P => by
    unfold appendLoop
    split
    · split
      · exact Nat.le_trans (appendVal_next mem _ _) (appendLoop_next rest _ _)
      · exact Nat.le_refl _
    · exact Nat.le_trans (makeVals_next mem _ _) (appendLoop_next rest _ _)

/-- The `$append` loop leaves an allocated array of generic sequences as it was, unless a
generic sequence stored under one of the keys it visits has spare capacity in it. -/
theorem appendLoop_vals : ∀ (es : List (String × Value)) (mem : Memory) (P : GoMap Value)
    (b : Nat), (es.map Prod.fst).Nodup → b < mem.next → SeqsQuiet P (es.map Prod.fst) b →
    (appendLoop es mem P).1.1.vals b = mem.vals b
  | [], _, _, _, _, _, _ => rfl
  | (k0, v0) :: rest, mem, P, b, hnd, hb, hq => by
    simp only [List.map_cons, List.nodup_cons] at hnd
    simp only [List.map_cons] at hq
    have hq1 : ∀ w, SeqsQuiet (P.put k0 w) (rest.map Prod.fst) b :=
      fun w => seqsQuiet_put_rest P k0 w _ b hnd.1 (seqsQuiet_tail P k0 _ b hq)
    unfold appendLoop
    split
    · next array h0 =>
      split
      · next s =>
        have hqs : s.len < s.cap → s.arr ≠ b :=
          hq k0 (List.mem_cons_self _ _) s ((mem_seqOf _ _).2 h0)
        rw [appendLoop_vals rest _ _ b hnd.2
          (Nat.lt_of_lt_of_le hb (appendVal_next mem s v0)) (hq1 _)]
        exact appendVal_vals mem s v0 b hb hqs
      · rfl
    · rw [appendLoop_vals rest _ _ b hnd.2
        (Nat.lt_of_lt_of_le hb (makeVals_next mem _ _)) (hq1 _)]
      exact makeVals_vals mem _ _ b hb

/-- When the `$append` loop returns, a key that was absent holds a generic sequence whose
only element is the incoming value, provided that the generic sequences stored under the
keys it visits are allocated. -/
theorem appendLoop_new : ∀ (es : List (String × Value)) (mem : Memory) (P : GoMap Value)
    (k : String) (v : Value), (es.map Prod.fst).Nodup → (k, v) ∈ es → P k = none →
    (appendLoop es mem P).2 = Outcome.returned none →
    SeqsAllocated mem P (es.map Prod.fst) →
    ∃ s', (appendLoop es mem P).1.2 k = some (Value.seq s') ∧
      (appendLoop es mem P).1.1.readVals s' = [v]
  | [], _, _, _, _, _, h, _, _, _ => by simp at h
  | (k0, v0) :: rest, mem, P, k, v, hnd, hmem, habs, hok, hal => by
    simp only [List.map_cons, List.nodup_cons] at hnd
    simp only [List.map_cons] at hal
    simp only [List.mem_cons, Prod.mk.injEq] at hmem
    rcases hmem with ⟨rfl, rfl⟩ | hmem
    · have hstep : appendLoop ((k, v) :: rest) mem P
          = appendLoop rest (mem.makeVals [v] 1).1
              (P.put k (Value.seq (mem.makeVals [v] 1).2)) := by
        simp only [appendLoop, habs]
      rw [hstep]
      refine ⟨(mem.makeVals [v] 1).2, ?_, ?_⟩
      · rw [appendLoop_frame rest _ _ k hnd.1, put_same]
      · have hquiet : SeqsQuiet (P.put k (Value.seq (mem.makeVals [v] 1).2))
            (rest.map Prod.fst) (mem.makeVals [v] 1).2.arr := by
          intro k' hk' s hs _
          have hne : k' ≠ k := fun h => hnd.1 (h ▸ hk')
          rw [put_other _ _ _ _ hne] at hs
          exact Nat.ne_of_lt (hal k' (List.mem_cons_of_mem _ hk') s hs)
        have hlt : (mem.makeVals [v] 1).2.arr < (mem.makeVals [v] 1).1.next :=
          Nat.lt_succ_self mem.next
        rw [Memory.readVals_congr (mem.makeVals [v] 1).1 _ _
          (appendLoop_vals rest _ _ _ hnd.2 hlt hquiet)]
        exact makeVals_read mem [v] 1
    · have hne : k ≠ k0 := by
        rintro rfl
        exact hnd.1 (List.mem_map.2 ⟨(k, v), hmem, rfl⟩)
      have hrest : ∀ (mem1 : Memory) (w : Value), mem.next ≤ mem1.next →
          (appendLoop rest mem1 (P.put k0 w)).2 = Outcome.returned none →
          ∃ s', (appendLoop rest mem1 (P.put k0 w)).1.2 k = some (Value.seq s') ∧
            (appendLoop rest mem1 (P.put k0 w)).1.1.readVals s' = [v] :=
        fun mem1 w hle hw =>
          appendLoop_new rest mem1 (P.put k0 w) k v hnd.2 hmem
            (by rw [put_other _ _ _ _ hne]; exact habs) hw
            (seqsAllocated_put_rest mem mem1 P k0 w _ hnd.1 hle hal)
      unfold appendLoop at hok ⊢
      split at hok
      · split at hok
        · exact hrest _ _ (appendVal_next mem _ _) hok
        · simp at hok
      · exact hrest _ _ (makeVals_next mem _ _) hok

/-- When the `$append` loop returns, a key that held the generic sequence `s` holds a
generic sequence whose elements are those of `s` followed by the incoming value, provided
that the generic sequences stored under the keys it visits are allocated and that none
stored under another key has spare capacity in the array of `s`. -/
theorem appendLoop_grown : ∀ (es : List (String × Value)) (mem : Memory) (P : GoMap Value)
    (k : String) (v : Value) (s : Slice), (es.map Prod.fst).Nodup → (k, v) ∈ es →
    P k = some (Value.seq s) → (appendLoop es mem P).2 = Outcome.returned none →
    SeqsAllocated mem P (es.map Prod.fst) →
    SeqsQuiet P ((es.map Prod.fst).filter (fun k' => k' ≠ k)) s.arr →
    ∃ s', (appendLoop es mem P).1.2 k = some (Value.seq s') ∧
      (appendLoop es mem P).1.1.readVals s' = mem.readVals s ++ [v]
  | [], _, _, _, _, _, _, h, _, _, _, _ => by simp at h
  | (k0, v0) :: rest, mem, P, k, v, s, hnd, hmem, hold, hok, hal, hq => by
    simp only [List.map_cons, List.nodup_cons] at hnd
    simp only [List.map_cons] at hal hq
    have hks : s.arr < mem.next := by
      have hk : k ∈ k0 :: rest.map Prod.fst := by
        rcases List.mem_cons.1 hmem with h | h
        · rw [show k = k0 from (Prod.mk.inj h).1]
          exact List.mem_cons_self _ _
        · exact List.mem_cons_of_mem _ (List.mem_map.2 ⟨_, h, rfl⟩)
      exact hal k hk s ((mem_seqOf _ _).2 hold)
    simp only [List.mem_cons, Prod.mk.injEq] at hmem
    rcases hmem with ⟨rfl, rfl⟩ | hmem
    · have hstep : appendLoop ((k, v) :: rest) mem P
          = appendLoop rest (mem.appendVal s v).1
              (P.put k (Value.seq (mem.appendVal s v).2)) := by
        simp only [appendLoop, hold]
      rw [hstep]
      refine ⟨(mem.appendVal s v).2, ?_, ?_⟩
      · rw [appendLoop_frame rest _ _ k hnd.1, put_same]
      · have hquiet : SeqsQuiet (P.put k (Value.seq (mem.appendVal s v).2))
            (rest.map Prod.fst) (mem.appendVal s v).2.arr := by
          intro k' hk' s2 hs hspare
          have hne : k' ≠ k := fun h => hnd.1 (h ▸ hk')
          rw [put_other _ _ _ _ hne] at hs
          have h1 : s2.arr < mem.next := hal k' (List.mem_cons_of_mem _ hk') s2 hs
          have h2 : s2.arr ≠ s.arr := by
            refine hq k' ?_ s2 hs hspare
            simp [List.mem_filter, hne, hk']
          rcases appendVal_arr mem s v with h3 | h3
          · rw [h3]
            exact h2
          · rw [h3]
            exact Nat.ne_of_lt h1
        rw [Memory.readVals_congr (mem.appendVal s v).1 _ _
          (appendLoop_vals rest _ _ _ hnd.2 (appendVal_arr_lt mem s v hks) hquiet)]
        exact appendVal_read mem s v
    · have hne : k ≠ k0 := by
        rintro rfl
        exact hnd.1 (List.mem_map.2 ⟨(k, v), hmem, rfl⟩)
      have hq1 : ∀ w, SeqsQuiet (P.put k0 w)
          ((rest.map Prod.fst).filter (fun k' => k' ≠ k)) s.arr := by
        intro w k' hk' s2 hs
        have hk'' := (List.mem_filter.1 hk').1
        have hne' : k' ≠ k0 := fun h => hnd.1 (h ▸ hk'')
        rw [put_other _ _ _ _ hne'] at hs
        refine hq k' ?_ s2 hs
        rw [List.mem_filter]
        exact ⟨List.mem_cons_of_mem _ hk'', (List.mem_filter.1 hk').2⟩
      have hrest : ∀ (mem1 : Memory) (w : Value), mem.next ≤ mem1.next →
          mem1.vals s.arr = mem.vals s.arr →
          (appendLoop rest mem1 (P.put k0 w)).2 = Outcome.returned none →
          ∃ s', (appendLoop rest mem1 (P.put k0 w)).1.2 k = some (Value.seq s') ∧
            (appendLoop rest mem1 (P.put k0 w)).1.1.readVals s' = mem.readVals s ++ [v] := by
        intro mem1 w hle hvs hw
        obtain ⟨s', h1, h2⟩ := appendLoop_grown rest mem1 (P.put k0 w) k v s hnd.2 hmem
          (by rw [put_other _ _ _ _ hne]; exact hold) hw
          (seqsAllocated_put_rest mem mem1 P k0 w _ hnd.1 hle hal) (hq1 w)
        exact ⟨s', h1, by rw [h2, Memory.readVals_congr mem mem1 s hvs]⟩
      unfold appendLoop at hok ⊢
      split at hok
      · next array h0 =>
        split at hok
        · next s0 =>
          have hk0f : k0 ∈ (k0 :: rest.map Prod.fst).filter (fun k' => k' ≠ k) := by
            simp [List.mem_filter, Ne.symm hne]
          exact hrest _ _ (appendVal_next mem _ _)
            (appendVal_vals mem s0 v0 s.arr hks (hq k0 hk0f s0 ((mem_seqOf _ _).2 h0))) hok
        · simp at hok
      · exact hrest _ _ (makeVals_next mem _ _) (makeVals_vals mem _ _ s.arr hks) hok

/-! ## The profile touched by `Mock.Update` and `Mock.Track` -/

theorem updateIP_Properties (u : Update) (p : MockPeople) :
    (updateIP u p).Properties = p.Properties := by
  unfold updateIP
  split_ifs <;> rfl

theorem updateTime_Properties (u : Update) (p : MockPeople) :
    (updateTime u p).Properties = p.Properties := by
  unfold updateTime
  split_ifs <;> rfl

theorem updateIP_Events (u : Update) (p : MockPeople) : (updateIP u p).Events = p.Events := by
  unfold updateIP
  split_ifs <;> rfl

theorem updateTime_Events (u : Update) (p : MockPeople) :
    (updateTime u p).Events = p.Events := by
  unfold updateTime
  split_ifs <;> rfl

theorem updateIP_Time (u : Update) (p : MockPeople) : (updateIP u p).Time = p.Time := by
  unfold updateIP
  split_ifs <;> rfl

theorem updateTime_IP (u : Update) (p : MockPeople) : (updateTime u p).IP = p.IP := by
  unfold updateTime
  split_ifs <;> rfl

theorem updateIP_IP (u : Update) (p : MockPeople) :
    (updateIP u p).IP = if u.IP ≠ "" ∧ (u.IP ≠ "0" ∨ p.IP = "") then u.IP else p.IP := by
  unfold updateIP
  by_cases h1 : u.IP = ""
  · simp [h1]
  · by_cases h2 : u.IP ≠ "0" ∨ p.IP = ""
    · simp [h1, h2]
    · simp only [ne_eq, h1, not_false_eq_true, if_true, h2, if_false, and_false]

theorem updateTime_Time (u : Update) (p : MockPeople) :
    (updateTime u p).Time
      = if u.Timestamp ≠ none ∧ u.Timestamp ≠ some IgnoreTime then u.Timestamp else p.Time := by
  unfold updateTime
  split_ifs <;> rfl

theorem updateIP_fix (u : Update) (p q : MockPeople) (h : q.IP = (updateIP u p).IP) :
    updateIP u q = q := by
  rw [updateIP_IP] at h
  unfold updateIP
  by_cases h1 : u.IP = ""
  · simp [h1]
  · by_cases h2 : u.IP ≠ "0" ∨ p.IP = ""
    · rw [if_pos ⟨h1, h2⟩] at h
      simp only [ne_eq, h1, not_false_eq_true, if_true]
      split_ifs
      · cases q
        simp only [MockPeople.mk.injEq, true_and, and_true]
        exact h.symm
      · rfl
    · rw [if_neg (fun hc => h2 hc.2)] at h
      have h3 : ¬ (u.IP ≠ "0" ∨ q.IP = "") := by
        rw [h]
        rintro (h3 | h3)
        · exact h2 (Or.inl h3)
        · exact h2 (Or.inr h3)
      simp only [ne_eq, h1, not_false_eq_true, if_true]
      rw [if_neg h3]

theorem updateTime_fix (u : Update) (p q : MockPeople) (h : q.Time = (updateTime u p).Time) :
    updateTime u q = q := by
  rw [updateTime_Time] at h
  unfold updateTime
  by_cases hc : u.Timestamp ≠ none ∧ u.Timestamp ≠ some IgnoreTime
  · rw [if_pos hc] at h ⊢
    cases q
    simp only [MockPeople.mk.injEq, true_and, and_true]
    exact h.symm
  · rw [if_neg hc]

theorem people_fst (m : Mock) (d : String) : (m.people d).1 = m.profile d := by
  unfold Mock.people Mock.profile
  cases h : m.People d <;> simp

theorem people_snd_Mem (m : Mock) (d : String) : (m.people d).2.Mem = m.Mem := by
  unfold Mock.people
  cases h : m.People d <;> rfl

theorem people_snd_People_other (m : Mock) (d d' : String) (h : d' ≠ d) :
    (m.people d).2.People d' = m.People d' := by
  unfold Mock.people
  cases hd : m.People d <;> simp [GoMap.put, h]

/-- The profile stored under `d` after `Mock.Update`. -/
theorem Update_profile (m : Mock) (d : String) (u : Update) :
    (m.Update d u).1.profile d =
      { updateTime u (updateIP u (m.profile d)) with
        Properties := (applyOperation u m.Mem (m.props d)).1.2 } := by
  simp only [Mock.Update, Mock.profile, put_same, Option.getD_some, Mock.props]
  rw [updateTime_Properties, updateIP_Properties, people_snd_Mem]
  have := people_fst m d
  simp only [Mock.profile] at this
  rw [this]

/-- The property mapping of the profile of `d` after `Mock.Update` is the one the
operation leaves. -/
theorem Update_props (m : Mock) (d : String) (u : Update) :
    (m.Update d u).1.props d = (applyOperation u m.Mem (m.props d)).1.2 := by
  rw [Mock.props, Update_profile]

/-- The memory after `Mock.Update` is the one the operation leaves. -/
theorem Update_Mem (m : Mock) (d : String) (u : Update) :
    (m.Update d u).1.Mem = (applyOperation u m.Mem (m.props d)).1.1 := by
  simp only [Mock.Update, Mock.props]
  rw [updateTime_Properties, updateIP_Properties, people_snd_Mem, people_fst]

/-- The result of `Mock.Update` is the one of the operation. -/
theorem Update_outcome (m : Mock) (d : String) (u : Update) :
    (m.Update d u).2 = (applyOperation u m.Mem (m.props d)).2 := by
  simp only [Mock.Update, Mock.props]
  rw [updateTime_Properties, updateIP_Properties, people_snd_Mem, people_fst]

/-- The entry of the `People` map under `d` after `Mock.Update`. -/
theorem Update_People_self (m : Mock) (d : String) (u : Update) :
    (m.Update d u).1.People d = some ((m.Update d u).1.profile d) := by
  simp [Mock.Update, Mock.profile, put_same]

/-- The other entries of the `People` map are not touched by `Mock.Update`. -/
theorem Update_People_other (m : Mock) (d d' : String) (u : Update) (h : d' ≠ d) :
    (m.Update d u).1.People d' = m.People d' := by
  simp only [Mock.Update]
  rw [put_other _ _ _ _ h, people_snd_People_other m d d' h]

/-- The profile stored under `d` after `Mock.Track`. -/
theorem Track_profile (m : Mock) (d name : String) (e : Event) :
    (m.Track d name e).1.profile d =
      { m.profile d with Events := (m.profile d).Events ++ [{ Event := e, Name := name }] } := by
  simp only [Mock.Track, Mock.store, Mock.profile, put_same, Option.getD_some]
  have := people_fst m d
  simp only [Mock.profile] at this
  rw [this]

theorem Track_People_self (m : Mock) (d name : String) (e : Event) :
    (m.Track d name e).1.People d = some ((m.Track d name e).1.profile d) := by
  simp [Mock.Track, Mock.store, Mock.profile, put_same]

/-- The other entries of the `People` map are not touched by `Mock.Track`. -/
theorem Track_People_other (m : Mock) (d d' name : String) (e : Event) (h : d' ≠ d) :
    (m.Track d name e).1.People d' = m.People d' := by
  simp only [Mock.Track, Mock.store]
  rw [put_other _ _ _ _ h, people_snd_People_other m d d' h]

/-- The memory is not touched by `Mock.Track`. -/
theorem Track_Mem (m : Mock) (d name : String) (e : Event) :
    (m.Track d name e).1.Mem = m.Mem := by
  simp only [Mock.Track, Mock.store]
  exact people_snd_Mem m d

theorem profile_congr (m m' : Mock) (d : String) (h : m'.People d = m.People d) :
    m'.profile d = m.profile d := by
  unfold Mock.profile
  rw [h]

/-- A call leaves the profiles of the other ids as they were. -/
theorem call_People_other (m : Mock) (c : Call) (d : String) :
    (∀ n e, c ≠ Call.track d n e) → (∀ u, c ≠ Call.update d u) →
    (m.call c).1.People d = m.People d := by
  intro ht hu
  cases c with
  | track d0 n e =>
    have hne : d ≠ d0 := fun h => ht n e (by rw [h])
    exact Track_People_other m d0 d n e hne
  | update d0 u =>
    have hne : d ≠ d0 := fun h => hu u (by rw [h])
    exact Update_People_other m d0 d u hne

theorem Mock.ext_fields (m m' : Mock) (hP : m'.People = m.People) (hM : m'.Mem = m.Mem) :
    m' = m := by
  cases m
  cases m'
  simp only [Mock.mk.injEq]
  exact ⟨hP, hM⟩

/-- An update that changes nothing in the profile of a known id and in the memory leaves
the state. -/
theorem Update_eq_self (m : Mock) (d : String) (u : Update)
    (hex : (m.People d).isSome = true) (hIP : updateIP u (m.profile d) = m.profile d)
    (hT : updateTime u (m.profile d) = m.profile d)
    (hP : (applyOperation u m.Mem (m.props d)).1 = (m.Mem, m.props d)) :
    (m.Update d u).1 = m := by
  have hprof := Update_profile m d u
  rw [hIP, hT, hP] at hprof
  have hsome : m.People d = some (m.profile d) := by
    unfold Mock.profile
    cases hd : m.People d with
    | none => rw [hd] at hex; exact absurd hex (by simp)
    | some p => rfl
  apply Mock.ext_fields
  · funext d'
    by_cases hd' : d' = d
    · subst hd'
      rw [Update_People_self, hprof, hsome]
      rfl
    · exact Update_People_other m d d' u hd'
  · rw [Update_Mem, hP]

/-! ## The operation switch -/

theorem applyOperation_unsupported (u : Update) (mem : Memory) (P : GoMap Value)
    (h1 : u.Operation ≠ "$set") (h2 : u.Operation ≠ "$set_once")
    (h3 : u.Operation ≠ "$append") (h4 : u.Operation ≠ "$union") :
    applyOperation u mem P
      = ((mem, P), Outcome.returned (some "mixpanel.Mock only supports the $set operation")) := by
  simp [applyOperation, h1, h2, h3, h4]

theorem applyOperation_set (u : Update) (mem : Memory) (P : GoMap Value)
    (h : u.Operation = "$set") :
    applyOperation u mem P = ((mem, setLoop u.Properties P), Outcome.returned none) := by
  simp [applyOperation, h]

theorem applyOperation_set_once (u : Update) (mem : Memory) (P : GoMap Value)
    (h : u.Operation = "$set_once") :
    applyOperation u mem P = ((mem, setOnceLoop u.Properties P), Outcome.returned none) := by
  simp [applyOperation, h]

theorem applyOperation_append (u : Update) (mem : Memory) (P : GoMap Value)
    (h : u.Operation = "$append") :
    applyOperation u mem P = appendLoop u.Properties mem P := by
  simp [applyOperation, h]

theorem applyOperation_union (u : Update) (mem : Memory) (P : GoMap Value)
    (h : u.Operation = "$union") :
    applyOperation u mem P = unionLoop u.Properties u.Properties mem P := by
  simp [applyOperation, h]

theorem unsupported_outcome (m : Mock) (d : String) (u : Update)
    (h1 : u.Operation ≠ "$set") (h2 : u.Operation ≠ "$set_once")
    (h3 : u.Operation ≠ "$append") (h4 : u.Operation ≠ "$union") :
    (m.Update d u).2
      = Outcome.returned (some "mixpanel.Mock only supports the $set operation") := by
  rw [Update_outcome, applyOperation_unsupported u _ _ h1 h2 h3 h4]

theorem applyOperation_frame (u : Update) (mem : Memory) (P : GoMap Value) (k : String)
    (hk : k ∉ u.keys) : (applyOperation u mem P).1.2 k = P k := by
  unfold applyOperation
  split_ifs
  · exact setLoop_frame _ _ k hk
  · exact setOnceLoop_frame _ _ k hk
  · exact appendLoop_frame _ _ _ k hk
  · exact unionLoop_frame _ _ _ _ k hk
  · rfl

/-- The operation leaves an allocated string array as it was, unless a string sequence
stored under a key of the update has spare capacity in it. -/
theorem applyOperation_strs (u : Update) (mem : Memory) (P : GoMap Value) (b : Nat)
    (hwf : u.WF) (hb : b < mem.next) (hq : StrsQuiet P u.keys b) :
    (applyOperation u mem P).1.1.strs b = mem.strs b := by
  unfold applyOperation
  split_ifs
  · rfl
  · rfl
  · rw [appendLoop_strs]
  · exact unionLoop_strs _ _ _ _ b hwf hb hq
  · rfl

/-- The operation leaves an allocated array of generic sequences as it was, unless a
generic sequence stored under a key of the update has spare capacity in it. -/
theorem applyOperation_vals (u : Update) (mem : Memory) (P : GoMap Value) (b : Nat)
    (hwf : u.WF) (hb : b < mem.next) (hq : SeqsQuiet P u.keys b) :
    (applyOperation u mem P).1.1.vals b = mem.vals b := by
  unfold applyOperation
  split_ifs
  · rfl
  · rfl
  · exact appendLoop_vals _ _ _ b hwf hb hq
  · rw [unionLoop_vals]
  · rfl

/-- The kinds `$set` and `$set_once` and the unsupported kinds leave the memory. -/
theorem applyOperation_mem (u : Update) (mem : Memory) (P : GoMap Value)
    (h3 : u.Operation ≠ "$append") (h4 : u.Operation ≠ "$union") :
    (applyOperation u mem P).1.1 = mem := by
  unfold applyOperation
  split_ifs <;> rfl

/-! ## Sequences of calls -/

/-- One call adds to the event sequence of `d` the entry of a `Track` made with `d`, and
nothing else. -/
theorem call_Events (m : Mock) (c : Call) (d : String) :
    ((m.call c).1.profile d).Events = (m.profile d).Events ++ trackedEvents d [c] := by
  cases c with
  | track d0 n e =>
    by_cases h : d0 = d
    · subst h
      simp only [Mock.call, trackedEvents, if_true]
      rw [Track_profile]
    · simp only [Mock.call, trackedEvents, h, if_false, List.append_nil]
      rw [profile_congr _ _ _ (Track_People_other m d0 d n e (Ne.symm h))]
  | update d0 u =>
    by_cases h : d0 = d
    · subst h
      simp only [Mock.call, trackedEvents, List.append_nil]
      rw [Update_profile]
      show (updateTime u (updateIP u (m.profile d0))).Events = _
      rw [updateTime_Events, updateIP_Events]
    · simp only [Mock.call, trackedEvents, List.append_nil]
      rw [profile_congr _ _ _ (Update_People_other m d0 d u (Ne.symm h))]

theorem trackedEvents_cons (d : String) (c : Call) (rest : List Call) :
    trackedEvents d (c :: rest) = trackedEvents d [c] ++ trackedEvents d rest := by
  cases c with
  | track d0 n e =>
    by_cases h : d0 = d <;> simp [trackedEvents, h]
  | update d0 u => simp [trackedEvents]

theorem run_Events : ∀ (calls : List Call) (m : Mock) (d : String),
    ((m.run calls).profile d).Events = (m.profile d).Events ++ trackedEvents d calls
  | [], m, d => by simp [Mock.run, trackedEvents]
  | c :: rest, m, d => by
    rw [Mock.run, run_Events rest, call_Events, List.append_assoc, ← trackedEvents_cons]

/-- One call adds to the property mapping of `d` only keys of an update made with `d`. -/
theorem call_keys (m : Mock) (c : Call) (d k : String)
    (h : (m.call c).1.props d k ≠ none) :
    m.props d k ≠ none ∨ ∃ u, c = Call.update d u ∧ k ∈ u.keys := by
  cases c with
  | track d0 n e =>
    left
    by_cases hd : d0 = d
    · subst hd
      simp only [Mock.call, Mock.props] at h
      rw [Track_profile] at h
      exact h
    · simp only [Mock.call, Mock.props] at h
      rw [profile_congr _ _ _ (Track_People_other m d0 d n e (Ne.symm hd))] at h
      exact h
  | update d0 u =>
    by_cases hd : d0 = d
    · subst hd
      by_cases hk : k ∈ u.keys
      · exact Or.inr ⟨u, rfl, hk⟩
      · left
        simp only [Mock.call] at h
        rw [Update_props, applyOperation_frame u _ _ k hk] at h
        exact h
    · left
      simp only [Mock.call, Mock.props] at h
      rw [profile_congr _ _ _ (Update_People_other m d0 d u (Ne.symm hd))] at h
      exact h

theorem run_keys : ∀ (calls : List Call) (m : Mock) (d k : String),
    (m.run calls).props d k ≠ none →
    m.props d k ≠ none ∨ ∃ u, Call.update d u ∈ calls ∧ k ∈ u.keys
  | [], m, d, k, h => Or.inl h
  | c :: rest, m, d, k, h => by
    rw [Mock.run] at h
    rcases run_keys rest _ d k h with h1 | ⟨u, hu, hk⟩
    · rcases call_keys m c d k h1 with h2 | ⟨u, hu, hk⟩
      · exact Or.inl h2
      · exact Or.inr ⟨u, by rw [hu]; exact List.mem_cons_self _ _, hk⟩
    · exact Or.inr ⟨u, List.mem_cons_of_mem _ hu, hk⟩

/-! ## The elements of the stored sequences after `Mock.Update` -/

theorem strsAt_eq (m : Mock) (d k : String) (s : Slice)
    (h : m.props d k = some (Value.strs s)) : m.strsAt d k = some (m.Mem.readStrs s) := by
  simp only [Mock.strsAt, h]

theorem seqAt_eq (m : Mock) (d k : String) (s : Slice)
    (h : m.props d k = some (Value.seq s)) : m.seqAt d k = some (m.Mem.readVals s) := by
  simp only [Mock.seqAt, h]

/-- After a successful `$union`, a key that held the string sequence `a` and came with the
string sequence `inc` holds the elements that the nested loops give on the elements of
`a` and `inc`, when the sequences involved are apart. -/
theorem Update_union_contents (m : Mock) (d : String) (u : Update) (k : String)
    (a inc : Slice) (hop : u.Operation = "$union") (hwf : u.WF)
    (hk : (k, Value.strs inc) ∈ u.Properties) (hold : m.props d k = some (Value.strs a))
    (hok : (m.Update d u).2 = Outcome.returned none)
    (hal : StrsAllocated m.Mem (m.props d) u.keys) (hi : inc.arr < m.Mem.next)
    (hqi : StrsQuiet (m.props d) u.keys inc.arr)
    (hqa : StrsQuiet (m.props d) (u.keys.filter (fun k' => k' ≠ k)) a.arr) :
    (m.Update d u).1.strsAt d k
      = some (unionList (m.Mem.readStrs a) (m.Mem.readStrs inc)) := by
  rw [Update_outcome, applyOperation_union u _ _ hop] at hok
  obtain ⟨a', h1, h2⟩ := unionLoop_contents u.Properties u.Properties m.Mem (m.props d) k a inc
    hwf (fun e he => lookup_of_mem u.Properties e.1 e.2 hwf he) hk hold hok hal hi hqi hqa
  have hp : (m.Update d u).1.props d k = some (Value.strs a') := by
    rw [Update_props, applyOperation_union u _ _ hop]
    exact h1
  rw [strsAt_eq _ d k a' hp, Update_Mem, applyOperation_union u _ _ hop, h2]

/-- After an `$append` that returns, a key that was absent holds the one-element sequence
of the incoming value, when the generic sequences stored under the keys of the update are
allocated. -/
theorem Update_append_new (m : Mock) (d : String) (u : Update) (k : String) (v : Value)
    (hop : u.Operation = "$append") (hwf : u.WF) (hk : (k, v) ∈ u.Properties)
    (habs : m.props d k = none) (hok : (m.Update d u).2 = Outcome.returned none)
    (hal : SeqsAllocated m.Mem (m.props d) u.keys) :
    (m.Update d u).1.seqAt d k = some [v] := by
  rw [Update_outcome, applyOperation_append u _ _ hop] at hok
  obtain ⟨s', h1, h2⟩ := appendLoop_new u.Properties m.Mem (m.props d) k v hwf hk habs hok hal
  have hp : (m.Update d u).1.props d k = some (Value.seq s') := by
    rw [Update_props, applyOperation_append u _ _ hop]
    exact h1
  rw [seqAt_eq _ d k s' hp, Update_Mem, applyOperation_append u _ _ hop, h2]

/-- After an `$append` that returns, a key that held the generic sequence `s` holds the
elements of `s` followed by the incoming value, when the generic sequences stored under
the keys of the update are allocated and none stored under another key has spare capacity
in the array of `s`. -/
theorem Update_append_grown (m : Mock) (d : String) (u : Update) (k : String) (v : Value)
    (s : Slice) (hop : u.Operation = "$append") (hwf : u.WF) (hk : (k, v) ∈ u.Properties)
    (hold : m.props d k = some (Value.seq s))
    (hok : (m.Update d u).2 = Outcome.returned none)
    (hal : SeqsAllocated m.Mem (m.props d) u.keys)
    (hq : SeqsQuiet (m.props d) (u.keys.filter (fun k' => k' ≠ k)) s.arr) :
    (m.Update d u).1.seqAt d k = some (m.Mem.readVals s ++ [v]) := by
  rw [Update_outcome, applyOperation_append u _ _ hop] at hok
  obtain ⟨s', h1, h2⟩ := appendLoop_grown u.Properties m.Mem (m.props d) k v s hwf hk hold
    hok hal hq
  have hp : (m.Update d u).1.props d k = some (Value.seq s') := by
    rw [Update_props, applyOperation_append u _ _ hop]
    exact h1
  rw [seqAt_eq _ d k s' hp, Update_Mem, applyOperation_append u _ _ hop, h2]

/-- A `$union` that returned `nil` on sequences that are apart leaves a state that a second
pass of the loop does not change. -/
theorem unionLoop_reapply (uP : List (String × Value)) (mem : Memory) (P : GoMap Value)
    (hnd : (uP.map Prod.fst).Nodup)
    (hok : (unionLoop uP uP mem P).2 = Outcome.returned none)
    (hsep : UnionSeparate mem P uP) :
    (unionLoop uP uP (unionLoop uP uP mem P).1.1 (unionLoop uP uP mem P).1.2).1
      = (unionLoop uP uP mem P).1 := by
  have hlk : ∀ e ∈ uP, lookup e.1 uP = some e.2 :=
    fun e he => lookup_of_mem uP e.1 e.2 hnd he
  refine unionLoop_stable uP uP _ _ (fun e he => ?_)
  rcases unionLoop_fine_of_returns uP uP mem P hnd hlk hok e he with h0 | h0 | ⟨a, inc, h0, hv⟩
  · have hp := unionLoop_verbatim uP uP mem P e.1 e.2 hnd he hok (Or.inl h0)
    rw [hp]
    refine ⟨by simp, fun h => Option.some.inj h, fun a inc ha hl x hx => ?_⟩
    rw [hlk e he] at hl
    have h1 : Value.strs a = Value.strs inc := (Option.some.inj ha).symm.trans
      (Option.some.inj hl)
    rw [show a = inc from Value.strs.inj h1]
    exact hx
  · have hp := unionLoop_verbatim uP uP mem P e.1 e.2 hnd he hok (Or.inr h0)
    rw [hp]
    refine ⟨by simp, fun h => Option.some.inj h, fun a inc ha hl x hx => ?_⟩
    rw [hlk e he] at hl
    have h1 : Value.strs a = Value.strs inc := (Option.some.inj ha).symm.trans
      (Option.some.inj hl)
    rw [show a = inc from Value.strs.inj h1]
    exact hx
  · obtain ⟨hqa, hinc⟩ := hsep.2 e he a ((mem_strsOf _ _).2 h0)
    obtain ⟨hi, hqi⟩ := hinc inc ((mem_strsOf _ _).2 (by rw [hv]))
    have hmem : (e.1, Value.strs inc) ∈ uP := by
      rw [← hv]
      exact he
    obtain ⟨a', h1, h2⟩ := unionLoop_contents uP uP mem P e.1 a inc hnd hlk hmem h0 hok
      hsep.1 hi hqi hqa
    rw [h1]
    refine ⟨by simp, by simp, fun a2 inc2 ha hl x hx => ?_⟩
    rw [hlk e he, hv] at hl
    have e1 : a2 = a' := (Value.strs.inj (Option.some.inj ha)).symm
    have e2 : inc2 = inc := (Value.strs.inj (Option.some.inj hl)).symm
    rw [e1, h2, mem_unionList]
    rw [e2, Memory.readStrs_congr mem _ inc (unionLoop_strs uP uP mem P inc.arr hnd hi hqi)]
      at hx
    exact Or.inr hx

/-! ## A `$union` that fails -/

theorem unionLoop_congr (uP uQ : List (String × Value)) : ∀ (es : List (String × Value))
    (mem : Memory) (P : GoMap Value), (∀ e ∈ es, lookup e.1 uP = lookup e.1 uQ) →
    unionLoop uP es mem P = unionLoop uQ es mem P
  | [], _, _, _ => rfl
  | (k0, v0) :: rest, mem, P, h => by
    have h0 : lookup k0 uP = lookup k0 uQ := h (k0, v0) (List.mem_cons_self _ _)
    have hrest : ∀ mem1 P1, unionLoop uP rest mem1 P1 = unionLoop uQ rest mem1 P1 :=
      fun mem1 P1 => unionLoop_congr uP uQ rest mem1 P1
        (fun e he => h e (List.mem_cons_of_mem _ he))
    unfold unionLoop
    rw [h0]
    simp only [hrest]

theorem Update_restrict_profile (m : Mock) (d : String) (u : Update)
    (entries : List (String × Value)) :
    updateTime (u.restrict entries) (updateIP (u.restrict entries) (m.profile d))
      = updateTime u (updateIP u (m.profile d)) := rfl

/-- A `$union` that returns an error leaves the state that the update restricted to the
entries visited before the failing one leaves; the restricted update returns `nil`, and
the failing key holds a value that is neither `nil` nor a string sequence. -/
theorem Update_union_stops (m : Mock) (d : String) (u : Update) (e : String)
    (hop : u.Operation = "$union") (hwf : u.WF)
    (herr : (m.Update d u).2 = Outcome.returned (some e)) :
    ∃ pre k v post x, u.Properties = pre ++ (k, v) :: post ∧
      m.props d k = some x ∧ x ≠ Value.nil ∧ (∀ s, x ≠ Value.strs s) ∧
      (m.Update d (u.restrict pre)).2 = Outcome.returned none ∧
      (m.Update d u).1 = (m.Update d (u.restrict pre)).1 := by
  rw [Update_outcome, applyOperation_union u _ _ hop] at herr
  obtain ⟨pre, k, v, post, hes, hpre, x, hx, hnil, hstrs⟩ :=
    unionLoop_stops u.Properties u.Properties m.Mem (m.props d) e herr
  have hnd : ((pre ++ (k, v) :: post).map Prod.fst).Nodup := by
    rw [← hes]
    exact hwf
  have hndpre : (pre.map Prod.fst).Nodup := by
    rw [List.map_append] at hnd
    exact (List.nodup_append.1 hnd).1
  have hkpre : k ∉ pre.map Prod.fst := by
    rw [List.map_append, List.map_cons] at hnd
    exact fun h => (List.nodup_append.1 hnd).2.2 h (List.mem_cons_self _ _)
  have hcongr : unionLoop u.Properties pre m.Mem (m.props d)
      = unionLoop pre pre m.Mem (m.props d) := by
    apply unionLoop_congr
    intro e' he'
    rw [lookup_of_mem pre e'.1 e'.2 hndpre he',
      lookup_of_mem u.Properties e'.1 e'.2 hwf (by rw [hes]; exact List.mem_append_left _ he')]
  have hres : applyOperation (u.restrict pre) m.Mem (m.props d)
      = ((unionLoop u.Properties u.Properties m.Mem (m.props d)).1, Outcome.returned none) := by
    rw [applyOperation_union (u.restrict pre) _ _ hop]
    show unionLoop pre pre m.Mem (m.props d) = _
    rw [← hcongr, hpre]
  refine ⟨pre, k, v, post, x, hes, ?_, hnil, hstrs, ?_, ?_⟩
  · have hfr := unionLoop_frame u.Properties pre m.Mem (m.props d) k hkpre
    rw [hpre] at hfr
    rw [← hfr]
    exact hx
  · rw [Update_outcome, hres]
  · apply Mock.ext_fields
    · funext d'
      by_cases hd' : d' = d
      · subst hd'
        rw [Update_People_self, Update_People_self, Update_profile, Update_profile, hres,
          applyOperation_union u _ _ hop]
        rfl
      · rw [Update_People_other m d d' _ hd', Update_People_other m d d' _ hd']
    · rw [Update_Mem, Update_Mem, hres, applyOperation_union u _ _ hop]

/-! ## Frames of an update on the stored sequences -/

theorem Update_strs (m : Mock) (d : String) (u : Update) (b : Nat) (hwf : u.WF)
    (hb : b < m.Mem.next) (hq : StrsQuiet (m.props d) u.keys b) :
    (m.Update d u).1.Mem.strs b = m.Mem.strs b := by
  rw [Update_Mem]
  exact applyOperation_strs u _ _ b hwf hb hq

theorem Update_vals (m : Mock) (d : String) (u : Update) (b : Nat) (hwf : u.WF)
    (hb : b < m.Mem.next) (hq : SeqsQuiet (m.props d) u.keys b) :
    (m.Update d u).1.Mem.vals b = m.Mem.vals b := by
  rw [Update_Mem]
  exact applyOperation_vals u _ _ b hwf hb hq

theorem strsAt_congr (m m' : Mock) (d k : String) (hp : m'.props d k = m.props d k)
    (hs : ∀ s, m.props d k = some (Value.strs s) → m'.Mem.strs s.arr = m.Mem.strs s.arr) :
    m'.strsAt d k = m.strsAt d k := by
  unfold Mock.strsAt
  rw [hp]
  cases h : m.props d k with
  | none => rfl
  | some x =>
    cases x with
    | strs s => simp only [Memory.readStrs_congr m.Mem m'.Mem s (hs s h)]
    | _ => rfl

theorem seqAt_congr (m m' : Mock) (d k : String) (hp : m'.props d k = m.props d k)
    (hs : ∀ s, m.props d k = some (Value.seq s) → m'.Mem.vals s.arr = m.Mem.vals s.arr) :
    m'.seqAt d k = m.seqAt d k := by
  unfold Mock.seqAt
  rw [hp]
  cases h : m.props d k with
  | none => rfl
  | some x =>
    cases x with
    | seq s => simp only [Memory.readVals_congr m.Mem m'.Mem s (hs s h)]
    | _ => rfl

theorem Update_props_other (m : Mock) (d d' : String) (u : Update) (hd : d' ≠ d) :
    (m.Update d u).1.props d' = m.props d' := by
  rw [Mock.props, profile_congr _ _ _ (Update_People_other m d d' u hd)]
  rfl

/-! ## Claims -/

/-- C1, as stated, fails: the code stores the slice it is given and `append` writes into
its backing array.  With one buffer `["a"]` of capacity 8 stored under `"f"` and `"g"`, the
successful `$union` of `["x"]` under `"f"` and `["y"]` under `"g"` leaves `["a", "y"]` under
`"f"`, not `["a", "x"]`: the visit of `"g"` overwrites what the visit of `"f"` appended. -/
theorem union_shared_array_counterexample :
    sharedUnion.Operation = "$union" ∧ sharedUnion.WF ∧
      ("f", Value.strs (lit 3 1)) ∈ sharedUnion.Properties ∧
      sharedMock.props "1" "f" = some (Value.strs bufferA) ∧
      sharedMock.Mem.readStrs bufferA = ["a"] ∧ sharedMock.Mem.readStrs (lit 3 1) = ["x"] ∧
      (sharedMock.Update "1" sharedUnion).2 = Outcome.returned none ∧
      (sharedMock.Update "1" sharedUnion).1.strsAt "1" "f" = some ["a", "y"] := by
  decide

/-- C1 (amended): `Mock.Update` with operation `$union`, for a key `k` whose stored value
is a string sequence `a` and whose incoming value is a string sequence `inc`: after a
successful update the elements stored under `k` are those of `a` followed by the elements
of `inc` that do not occur in `a`, each taken once at its first occurrence and in incoming
order, so the elements of `a` are an initial segment of the result; provided that the
string sequences stored under the keys of the update and `inc` lie in allocated arrays, and
that no string sequence stored under a key of the update has spare capacity in the backing
array of `inc` or, for a key other than `k`, in the backing array of `a`. -/
theorem union_existing_key (m : Mock) (d : String) (u : Update) (k : String)
    (a inc : Slice) (hop : u.Operation = "$union") (hwf : u.WF)
    (hk : (k, Value.strs inc) ∈ u.Properties)
    (hold : m.props d k = some (Value.strs a))
    (hok : (m.Update d u).2 = Outcome.returned none)
    (hal : StrsAllocated m.Mem (m.props d) u.keys) (hi : inc.arr < m.Mem.next)
    (hqi : StrsQuiet (m.props d) u.keys inc.arr)
    (hqa : StrsQuiet (m.props d) (u.keys.filter (fun k' => k' ≠ k)) a.arr) :
    (m.Update d u).1.strsAt d k
        = some (m.Mem.readStrs a ++
            keepFirst ((m.Mem.readStrs inc).filter (fun x => x ∉ m.Mem.readStrs a))) ∧
      m.Mem.readStrs a <+: m.Mem.readStrs a ++
        keepFirst ((m.Mem.readStrs inc).filter (fun x => x ∉ m.Mem.readStrs a)) := by
  refine ⟨?_, List.prefix_append _ _⟩
  rw [Update_union_contents m d u k a inc hop hwf hk hold hok hal hi hqi hqa,
    unionList_eq_unionSpec, unionSpec]

/-- The run of `TestUpdateUnion`: from an empty mock, unions of `["a"]`, then `["b"]`, then
`["c","a","b","d"]` on key `"f"` leave `["a","b","c","d"]`; the last step unites
`["c","a","b","d"]` with the stored `["a","b"]`. -/
theorem union_existing_key_witness :
    (runUpdates (NewMock exampleMemory) "1" unionTestUpdates).1.strsAt "1" "f"
        = some ["a", "b", "c", "d"] ∧
      (runUpdates (NewMock exampleMemory) "1" unionTestUpdates).2 = Outcome.returned none ∧
      (runUpdates (NewMock exampleMemory) "1" (unionTestUpdates.take 2)).1.strsAt "1" "f"
        = some ["a", "b"] ∧
      ((runUpdates (NewMock exampleMemory) "1" (unionTestUpdates.take 2)).1.Update "1"
          { Operation := "$union", IP := "127.0.0.1", Timestamp := none,
            Properties := [("f", Value.strs (lit 2 4))] }).1.strsAt "1" "f"
        = some (["a", "b"] ++
            keepFirst (["c", "a", "b", "d"].filter (fun x => x ∉ ["a", "b"]))) ∧
      ["a", "b"] ++ keepFirst (["c", "a", "b", "d"].filter (fun x => x ∉ ["a", "b"]))
        = ["a", "b", "c", "d"] :=
  ⟨by decide, by decide, by decide,
    (union_existing_key (runUpdates (NewMock exampleMemory) "1" (unionTestUpdates.take 2)).1
      "1" { Operation := "$union", IP := "127.0.0.1", Timestamp := none,
            Properties := [("f", Value.strs (lit 2 4))] } "f" (Slice.mk 11 0 2 2) (lit 2 4)
      (by decide) (by decide) (by decide) (by decide) (by decide) (by decide) (by decide)
      (by decide) (by decide)).1,
    by decide⟩

/-- C3, as stated, fails: a key that is present with the `nil` value (not a sequence of
strings) is treated as absent by the test `curArray == nil`; the `$union` returns `nil`
and replaces the stored value. -/
theorem union_nil_value_counterexample :
    nilValueMock.props "1" "k" = some Value.nil ∧
      (nilValueMock.Update "1" (Update.of "$union" [("k", Value.strs (lit 0 1))])).2
        = Outcome.returned none ∧
      ((nilValueMock.Update "1" (Update.of "$union" [("k", Value.strs (lit 0 1))])).1.props
        "1") "k" = some (Value.strs (lit 0 1)) := by
  decide

/-- C3 (amended): for `Mock.Update` with operation `$union` and a key `k` of the update
that is present in the profile with a value other than `nil` that is not a sequence of
strings, the value stored under `k` is left unchanged; and the call returns the error
"Can only do $union operation on an array" when every key of the update that holds a
string sequence comes with an incoming string sequence. -/
theorem union_non_sequence (m : Mock) (d : String) (u : Update) (k : String) (x : Value)
    (hop : u.Operation = "$union") (hwf : u.WF) (hk : k ∈ u.keys)
    (hx : m.props d k = some x) (hnil : x ≠ Value.nil) (hstrs : ∀ a, x ≠ Value.strs a) :
    (m.Update d u).1.props d k = some x ∧
      ((∀ k' v' a, (k', v') ∈ u.Properties → m.props d k' = some (Value.strs a) →
          ∃ inc, v' = Value.strs inc) →
        (m.Update d u).2
          = Outcome.returned (some "Can only do $union operation on an array")) := by
  rw [Update_outcome, Update_props, applyOperation_union u _ _ hop]
  refine ⟨unionLoop_keeps _ _ _ _ k x hx hnil hstrs, fun hty => ?_⟩
  exact unionLoop_error u.Properties u.Properties m.Mem (m.props d) k x hwf
    (fun e he => lookup_of_mem u.Properties e.1 e.2 hwf he)
    (fun e he a h => hty e.1 e.2 a he h) hk hx hnil hstrs

/-- A `$union` onto the string stored by `$set` under `"k"` returns the error and leaves
the string in place. -/
theorem union_non_sequence_witness :
    ((stringValueMock.Update "1" (Update.of "$union" [("k", Value.strs (lit 0 1))])).1.props
        "1") "k" = some (Value.str "x") ∧
      (stringValueMock.Update "1" (Update.of "$union" [("k", Value.strs (lit 0 1))])).2
        = Outcome.returned (some "Can only do $union operation on an array") :=
  ⟨(union_non_sequence stringValueMock "1" (Update.of "$union" [("k", Value.strs (lit 0 1))])
      "k" (Value.str "x") (by decide) (by decide) (by decide) (by decide) (by decide)
      (by intro a; exact Value.noConfusion)).1,
    (union_non_sequence stringValueMock "1" (Update.of "$union" [("k", Value.strs (lit 0 1))])
      "k" (Value.str "x") (by decide) (by decide) (by decide) (by decide) (by decide)
      (by intro a; exact Value.noConfusion)).2 (by
        intro k' v' a hmem hs
        simp only [Update.of, List.mem_singleton, Prod.mk.injEq] at hmem
        have hstored : stringValueMock.props "1" "k" = some (Value.str "x") := by decide
        rw [hmem.1, hstored] at hs
        simp at hs)⟩

/-- C4: for every mock state, every distinct id and every update whose operation kind is
none of `$set`, `$set_once`, `$append`, `$union`, `Mock.Update` returns a non-nil error and
the property mapping of the profile after the call is the one before it (the empty one
when the profile did not exist). -/
theorem unsupported_operation (m : Mock) (d : String) (u : Update)
    (h1 : u.Operation ≠ "$set") (h2 : u.Operation ≠ "$set_once")
    (h3 : u.Operation ≠ "$append") (h4 : u.Operation ≠ "$union") :
    (m.Update d u).2
        = Outcome.returned (some "mixpanel.Mock only supports the $set operation") ∧
      (m.Update d u).1.props d = m.props d := by
  rw [Update_outcome, Update_props, applyOperation_unsupported u _ _ h1 h2 h3 h4]
  exact ⟨rfl, rfl⟩

/-- An `$increment` on a profile that holds a string under `"k"`. -/
theorem unsupported_operation_witness :
    (stringValueMock.Update "1" (Update.of "$increment" [("k", Value.num 1)])).2
        = Outcome.returned (some "mixpanel.Mock only supports the $set operation") ∧
      (stringValueMock.Update "1" (Update.of "$increment" [("k", Value.num 1)])).1.props "1"
        = stringValueMock.props "1" :=
  unsupported_operation stringValueMock "1" (Update.of "$increment" [("k", Value.num 1)])
    (by decide) (by decide) (by decide) (by decide)

/-- C6, as stated, fails: the IP rule and the timestamp rule run before the operation
kind is looked at.  An `$increment` that carries an IP and a timestamp returns the error
and has changed the IP and the stored timestamp of the profile. -/
theorem unsupported_kind_state_counterexample :
    (stringValueMock.Update "1" unsupportedUpdate).2
        = Outcome.returned (some "mixpanel.Mock only supports the $set operation") ∧
      (stringValueMock.profile "1").IP = "" ∧
      ((stringValueMock.Update "1" unsupportedUpdate).1.profile "1").IP = "10.0.0.1" ∧
      (stringValueMock.profile "1").Time = none ∧
      ((stringValueMock.Update "1" unsupportedUpdate).1.profile "1").Time
        = some (TimePtr.time 1700000000) ∧
      (stringValueMock.Update "1" unsupportedUpdate).1 ≠ stringValueMock :=
  ⟨by decide, by decide, by decide, by decide, by decide,
    fun h => absurd (congrArg (fun x => (Mock.profile x "1").IP) h) (by decide)⟩

/-- C6 (amended): for every mock state and every update with an unsupported operation
kind, `Mock.Update` returns an error and leaves unchanged the property mapping and the
event sequence of the profile, and every other profile.  The IP rule and the timestamp
rule have been applied, as for every update; the whole state is the one before the call
when the profile existed, the update has an empty IP and carries no timestamp or
`IgnoreTime`. -/
theorem unsupported_kind_state (m : Mock) (d : String) (u : Update)
    (h1 : u.Operation ≠ "$set") (h2 : u.Operation ≠ "$set_once")
    (h3 : u.Operation ≠ "$append") (h4 : u.Operation ≠ "$union") :
    (m.Update d u).2
        = Outcome.returned (some "mixpanel.Mock only supports the $set operation") ∧
      ((m.Update d u).1.profile d).Properties = (m.profile d).Properties ∧
      ((m.Update d u).1.profile d).Events = (m.profile d).Events ∧
      ((m.Update d u).1.profile d).IP
        = (if u.IP ≠ "" ∧ (u.IP ≠ "0" ∨ (m.profile d).IP = "") then u.IP
            else (m.profile d).IP) ∧
      ((m.Update d u).1.profile d).Time
        = (if u.Timestamp ≠ none ∧ u.Timestamp ≠ some IgnoreTime then u.Timestamp
            else (m.profile d).Time) ∧
      (∀ d', d' ≠ d → (m.Update d u).1.People d' = m.People d') ∧
      ((m.People d).isSome = true → u.IP = "" →
        (u.Timestamp = none ∨ u.Timestamp = some IgnoreTime) → (m.Update d u).1 = m) := by
  have hprof := Update_profile m d u
  rw [applyOperation_unsupported u _ _ h1 h2 h3 h4] at hprof
  refine ⟨(unsupported_outcome m d u h1 h2 h3 h4), ?_, ?_, ?_, ?_, ?_, ?_⟩
  · rw [hprof]; rfl
  · rw [hprof]
    show (updateTime u (updateIP u (m.profile d))).Events = _
    rw [updateTime_Events, updateIP_Events]
  · rw [hprof]
    show (updateTime u (updateIP u (m.profile d))).IP = _
    rw [updateTime_IP, updateIP_IP]
  · rw [hprof]
    show (updateTime u (updateIP u (m.profile d))).Time = _
    rw [updateTime_Time, updateIP_Time]
  · exact fun d' hd' => Update_People_other m d d' u hd'
  · intro hex hip hts
    have hIP : updateIP u (m.profile d) = m.profile d := by simp [updateIP, hip]
    have hT : updateTime u (m.profile d) = m.profile d := by
      unfold updateTime
      rcases hts with h | h <;> simp [h]
    exact Update_eq_self m d u hex hIP hT
      (by rw [applyOperation_unsupported u _ _ h1 h2 h3 h4])

/-- An `$increment` without IP and timestamp leaves the state as it was; one with both has
applied the IP rule. -/
theorem unsupported_kind_state_witness :
    (stringValueMock.Update "1" (Update.of "$increment" [("n", Value.num 1)])).1
        = stringValueMock ∧
      ((stringValueMock.Update "1" unsupportedUpdate).1.profile "1").Events
        = (stringValueMock.profile "1").Events :=
  ⟨(unsupported_kind_state stringValueMock "1"
      (Update.of "$increment" [("n", Value.num 1)]) (by decide) (by decide) (by decide)
      (by decide)).2.2.2.2.2.2 (by decide) (by decide) (Or.inl (by decide)),
    (unsupported_kind_state stringValueMock "1" unsupportedUpdate (by decide)
      (by decide) (by decide) (by decide)).2.2.1⟩

/-- C7: `Mock.Update` with operation `$set` returns `nil` and leaves a property mapping
in which each key of the update maps to the value of the update, and every key that is not
in the update keeps its previous value or absence. -/
theorem set_operation (m : Mock) (d : String) (u : Update) (hop : u.Operation = "$set")
    (hwf : u.WF) :
    (m.Update d u).2 = Outcome.returned none ∧
      (∀ k v, (k, v) ∈ u.Properties → (m.Update d u).1.props d k = some v) ∧
      (∀ k, k ∉ u.keys → (m.Update d u).1.props d k = m.props d k) := by
  rw [Update_outcome, Update_props, applyOperation_set u _ _ hop]
  exact ⟨rfl, fun k v hk => setLoop_applied _ _ k v hwf hk, fun k hk => setLoop_frame _ _ k hk⟩

/-- A `$set` of `"k"` and `"n"` on a profile that holds `"x"` under `"k"` overwrites
`"k"`. -/
theorem set_operation_witness :
    (stringValueMock.Update "1"
        (Update.of "$set" [("k", Value.str "z"), ("n", Value.num 2)])).2
        = Outcome.returned none ∧
      stringValueMock.props "1" "k" = some (Value.str "x") ∧
      ((stringValueMock.Update "1"
        (Update.of "$set" [("k", Value.str "z"), ("n", Value.num 2)])).1.props "1") "k"
        = some (Value.str "z") :=
  ⟨(set_operation stringValueMock "1"
      (Update.of "$set" [("k", Value.str "z"), ("n", Value.num 2)]) (by decide)
      (by decide)).1,
    by decide,
    (set_operation stringValueMock "1"
      (Update.of "$set" [("k", Value.str "z"), ("n", Value.num 2)]) (by decide)
      (by decide)).2.1 "k" (Value.str "z") (by decide)⟩

/-- C8: `Mock.Update` with operation `$set_once` returns `nil`; every key already present
keeps its previous value, every key of the update that was absent maps to the value of the
update, and no other key changes. -/
theorem set_once_operation (m : Mock) (d : String) (u : Update)
    (hop : u.Operation = "$set_once") (hwf : u.WF) :
    (m.Update d u).2 = Outcome.returned none ∧
      (∀ k c, m.props d k = some c → (m.Update d u).1.props d k = some c) ∧
      (∀ k v, (k, v) ∈ u.Properties → m.props d k = none →
        (m.Update d u).1.props d k = some v) ∧
      (∀ k, k ∉ u.keys → (m.Update d u).1.props d k = m.props d k) := by
  rw [Update_outcome, Update_props, applyOperation_set_once u _ _ hop]
  refine ⟨rfl, fun k c hc => ?_, fun k v hk habs => ?_, fun k hk => setOnceLoop_frame _ _ k hk⟩
  · show setOnceLoop u.Properties (m.props d) k = some c
    by_cases hk : k ∈ u.keys
    · obtain ⟨⟨k', v⟩, hmem, rfl⟩ := List.mem_map.1 hk
      rw [setOnceLoop_applied _ _ k' v hwf hmem, hc]
      rfl
    · rw [setOnceLoop_frame _ _ k hk, hc]
  · show setOnceLoop u.Properties (m.props d) k = some v
    rw [setOnceLoop_applied _ _ k v hwf hk, habs]
    rfl

/-- On a fresh mock, `$set_once{k: v1}` followed by `$set_once{k: v2}` leaves `"k"` at
`"v1"`: the second call finds the key present. -/
theorem set_once_operation_witness :
    ((runUpdates (NewMock exampleMemory) "1" [Update.of "$set_once" [("k", Value.str "v1")],
        Update.of "$set_once" [("k", Value.str "v2")]]).1.props "1") "k"
        = some (Value.str "v1") ∧
      ((((NewMock exampleMemory).Update "1"
          (Update.of "$set_once" [("k", Value.str "v1")])).1.Update "1"
        (Update.of "$set_once" [("k", Value.str "v2")])).1.props "1") "k"
        = some (Value.str "v1") :=
  ⟨by decide,
    (set_once_operation
      ((NewMock exampleMemory).Update "1" (Update.of "$set_once" [("k", Value.str "v1")])).1
      "1" (Update.of "$set_once" [("k", Value.str "v2")]) (by decide) (by decide)).2.1
      "k" (Value.str "v1") (by decide)⟩

/-- C9, as stated, fails: `append` writes into the backing array of the slice it grows.
The profile holds `[x, y, z, p]` under `"k"` and, under `"k2"`, the slice that `"k"` held
when its elements were `[x, y, z]`.  The `$append` of `q` under `"k2"` returns `nil` and
leaves `[x, y, z, q]` under `"k"`, a key that is not in the update. -/
theorem append_shared_array_counterexample :
    (Update.of "$append" [("k2", Value.str "q")]).WF ∧
      "k" ∉ (Update.of "$append" [("k2", Value.str "q")]).keys ∧
      sharedAppendMock.seqAt "1" "k"
        = some [Value.str "x", Value.str "y", Value.str "z", Value.str "p"] ∧
      (sharedAppendMock.Update "1" (Update.of "$append" [("k2", Value.str "q")])).2
        = Outcome.returned none ∧
      (sharedAppendMock.Update "1" (Update.of "$append" [("k2", Value.str "q")])).1.seqAt "1"
        "k" = some [Value.str "x", Value.str "y", Value.str "z", Value.str "q"] := by
  decide

/-- C9 (amended): `Mock.Update` with operation `$append` returns `nil` when every key of
the update is absent or holds a generic sequence.  When the call returns and the generic
sequences stored under the keys of the update lie in allocated arrays, a key of the update
that was absent holds the one-element sequence `[value]`, and a key that held the generic
sequence `s` holds the elements of `s` with `value` added as last element, provided that no
generic sequence with spare capacity stored under another key of the update shares the
array of `s`.  A key that is not in the update keeps the value stored under it; the
elements of a string sequence stored there are unchanged, and so are those of a generic
sequence stored there, provided that it lies in an allocated array that no generic sequence
with spare capacity stored under a key of the update shares. -/
theorem append_operation (m : Mock) (d : String) (u : Update)
    (hop : u.Operation = "$append") (hwf : u.WF) :
    ((∀ k ∈ u.keys, m.props d k = none ∨ ∃ s, m.props d k = some (Value.seq s)) →
        (m.Update d u).2 = Outcome.returned none) ∧
      ((m.Update d u).2 = Outcome.returned none →
        SeqsAllocated m.Mem (m.props d) u.keys →
        (∀ k v, (k, v) ∈ u.Properties → m.props d k = none →
          (m.Update d u).1.seqAt d k = some [v]) ∧
        (∀ k v s, (k, v) ∈ u.Properties → m.props d k = some (Value.seq s) →
          SeqsQuiet (m.props d) (u.keys.filter (fun k' => k' ≠ k)) s.arr →
          (m.Update d u).1.seqAt d k = some (m.Mem.readVals s ++ [v]))) ∧
      (∀ k, k ∉ u.keys →
        (m.Update d u).1.props d k = m.props d k ∧
        (m.Update d u).1.strsAt d k = m.strsAt d k ∧
        (∀ s, m.props d k = some (Value.seq s) → s.arr < m.Mem.next →
          SeqsQuiet (m.props d) u.keys s.arr →
          (m.Update d u).1.seqAt d k = m.seqAt d k)) := by
  have hfr : ∀ k, k ∉ u.keys → (m.Update d u).1.props d k = m.props d k := by
    intro k hk
    rw [Update_props, applyOperation_append u _ _ hop]
    exact appendLoop_frame _ _ _ k hk
  refine ⟨fun hty => ?_, fun hok hal => ⟨fun k v hk habs => ?_, fun k v s hk hs hq => ?_⟩,
    fun k hk => ⟨hfr k hk, ?_, fun s hs hb hq => ?_⟩⟩
  · rw [Update_outcome, applyOperation_append u _ _ hop]
    exact appendLoop_returns _ _ _ hwf hty
  · exact Update_append_new m d u k v hop hwf hk habs hok hal
  · exact Update_append_grown m d u k v s hop hwf hk hs hok hal hq
  · refine strsAt_congr m _ d k (hfr k hk) (fun s _ => ?_)
    rw [Update_Mem, applyOperation_append u _ _ hop, appendLoop_strs]
  · refine seqAt_congr m _ d k (hfr k hk) (fun s' hs' => ?_)
    rw [hs] at hs'
    cases hs'
    exact Update_vals m d u s.arr hwf hb hq

/-- On a fresh mock, `$append{k: x}` followed by `$append{k: y}` leaves `[x, y]` under
`"k"`: the second call finds the generic sequence `[x]`. -/
theorem append_operation_witness :
    (runUpdates (NewMock exampleMemory) "1" [Update.of "$append" [("k", Value.str "x")],
        Update.of "$append" [("k", Value.str "y")]]).1.seqAt "1" "k"
        = some [Value.str "x", Value.str "y"] ∧
      (((NewMock exampleMemory).Update "1" (Update.of "$append" [("k", Value.str "x")])).1.Update
        "1" (Update.of "$append" [("k", Value.str "y")])).2 = Outcome.returned none ∧
      (((NewMock exampleMemory).Update "1" (Update.of "$append" [("k", Value.str "x")])).1.Update
        "1" (Update.of "$append" [("k", Value.str "y")])).1.seqAt "1" "k"
        = some (((NewMock exampleMemory).Update "1"
            (Update.of "$append" [("k", Value.str "x")])).1.Mem.readVals (Slice.mk 11 0 1 1)
          ++ [Value.str "y"]) :=
  ⟨by decide, by decide,
    ((append_operation
      ((NewMock exampleMemory).Update "1" (Update.of "$append" [("k", Value.str "x")])).1
      "1" (Update.of "$append" [("k", Value.str "y")]) (by decide) (by decide)).2.1
      (by decide) (by decide)).2 "k" (Value.str "y") (Slice.mk 11 0 1 1) (by decide)
      (by decide) (by decide)⟩

/-- C10 fails on the code: an `$append` onto a key whose stored value is not a generic
sequence (a string written by `$set`, a string sequence written by `$union`) aborts on
`array.([]interface{})`, and a `$union` of a value that is not a string sequence onto a
stored string sequence aborts on `u.Properties[key].([]string)`; no error is returned. -/
theorem update_aborts :
    (stringValueMock.Update "1" (Update.of "$append" [("k", Value.str "y")])).2
        = Outcome.panicked ∧
      (stringsValueMock.Update "1" (Update.of "$append" [("f", Value.str "b")])).2
        = Outcome.panicked ∧
      (stringsValueMock.Update "1" (Update.of "$union" [("f", Value.str "b")])).2
        = Outcome.panicked := by
  decide

/-- C11: the IP rule of `Mock.Update`, for every operation kind and every result of the
call: the IP of the profile after the call is the IP of the update when that IP is
non-empty and either is not `"0"` or the profile had no IP; otherwise it is the IP the
profile had.  A `"0"` never replaces a known IP and an empty IP never clears one; the IP
after the call is the IP of the update only under the rule or when the profile had that
IP already. -/
theorem update_ip_rule (m : Mock) (d : String) (u : Update) :
    ((m.Update d u).1.profile d).IP
        = (if u.IP ≠ "" ∧ (u.IP ≠ "0" ∨ (m.profile d).IP = "") then u.IP
            else (m.profile d).IP) ∧
      (u.IP = "0" → (m.profile d).IP ≠ "" →
        ((m.Update d u).1.profile d).IP = (m.profile d).IP) ∧
      (u.IP = "" → ((m.Update d u).1.profile d).IP = (m.profile d).IP) ∧
      (((m.Update d u).1.profile d).IP = u.IP ↔
        (u.IP ≠ "" ∧ (u.IP ≠ "0" ∨ (m.profile d).IP = "")) ∨ (m.profile d).IP = u.IP) := by
  have h : ((m.Update d u).1.profile d).IP
      = (if u.IP ≠ "" ∧ (u.IP ≠ "0" ∨ (m.profile d).IP = "") then u.IP
          else (m.profile d).IP) := by
    rw [Update_profile]
    show (updateTime u (updateIP u (m.profile d))).IP = _
    rw [updateTime_IP, updateIP_IP]
  refine ⟨h, fun h0 hk => ?_, fun he => ?_, ?_⟩
  · rw [h, if_neg]
    rintro ⟨_, h1 | h1⟩
    · exact h1 h0
    · exact hk h1
  · rw [h, if_neg]
    rintro ⟨h1, _⟩
    exact h1 he
  · rw [h]
    by_cases hc : u.IP ≠ "" ∧ (u.IP ≠ "0" ∨ (m.profile d).IP = "")
    · simp [hc]
    · rw [if_neg hc]
      simp [hc]

/-- A `"0"` does not replace the known IP `"10.0.0.1"`, an empty IP does not clear it, and
another IP replaces it. -/
theorem update_ip_rule_witness :
    ((knownIPMock.Update "1" (Update.touch "0" none)).1.profile "1").IP = "10.0.0.1" ∧
      ((knownIPMock.Update "1" (Update.touch "" none)).1.profile "1").IP = "10.0.0.1" ∧
      ((knownIPMock.Update "1" (Update.touch "10.0.0.2" none)).1.profile "1").IP
        = "10.0.0.2" :=
  ⟨(update_ip_rule knownIPMock "1" (Update.touch "0" none)).2.1 (by decide) (by decide),
    (update_ip_rule knownIPMock "1" (Update.touch "" none)).2.2.1 (by decide),
    ((update_ip_rule knownIPMock "1" (Update.touch "10.0.0.2" none)).2.2.2).2
      (Or.inl (by decide))⟩

/-- C12: the timestamp rule of `Mock.Update`: when the update carries a timestamp that is
not the `IgnoreTime` sentinel, the stored timestamp of the profile after the call is that
timestamp; when it carries no timestamp or carries `IgnoreTime`, the stored timestamp is
unchanged. -/
theorem update_time_rule (m : Mock) (d : String) (u : Update) :
    (∀ t, u.Timestamp = some t → t ≠ IgnoreTime →
        ((m.Update d u).1.profile d).Time = some t) ∧
      (u.Timestamp = none ∨ u.Timestamp = some IgnoreTime →
        ((m.Update d u).1.profile d).Time = (m.profile d).Time) := by
  have h : ((m.Update d u).1.profile d).Time
      = (if u.Timestamp ≠ none ∧ u.Timestamp ≠ some IgnoreTime then u.Timestamp
          else (m.profile d).Time) := by
    rw [Update_profile]
    show (updateTime u (updateIP u (m.profile d))).Time = _
    rw [updateTime_Time, updateIP_Time]
  refine ⟨fun t ht hne => ?_, fun hts => ?_⟩
  · rw [h, if_pos, ht]
    rw [ht]
    exact ⟨by simp, fun he => hne (Option.some.inj he)⟩
  · rw [h, if_neg]
    rintro ⟨h1, h2⟩
    rcases hts with h3 | h3
    · exact h1 h3
    · exact h2 h3

/-- A timestamp replaces the stored one; `IgnoreTime` and no timestamp leave it. -/
theorem update_time_rule_witness :
    ((knownIPMock.Update "1" (Update.touch "" (some (TimePtr.time 5)))).1.profile "1").Time
        = some (TimePtr.time 5) ∧
      ((knownIPMock.Update "1" (Update.touch "" (some IgnoreTime))).1.profile "1").Time
        = (knownIPMock.profile "1").Time ∧
      (knownIPMock.profile "1").Time = some (TimePtr.time 1700000000) :=
  ⟨(update_time_rule knownIPMock "1" (Update.touch "" (some (TimePtr.time 5)))).1
      (TimePtr.time 5) (by decide) (by decide),
    (update_time_rule knownIPMock "1" (Update.touch "" (some IgnoreTime))).2
      (Or.inr (by decide)),
    by decide⟩

/-- C13: `Mock.Track` never fails and appends exactly one entry: it returns `nil`, the
event sequence of the profile afterwards is the previous one (empty when the profile did
not exist) followed by one entry with that event and that name, and the properties, IP
and timestamp of the profile are unchanged. -/
theorem track_appends (m : Mock) (d name : String) (e : Event) :
    (m.Track d name e).2 = Outcome.returned none ∧
      ((m.Track d name e).1.profile d).Events
        = (m.profile d).Events ++ [{ Event := e, Name := name }] ∧
      ((m.Track d name e).1.profile d).Properties = (m.profile d).Properties ∧
      ((m.Track d name e).1.profile d).IP = (m.profile d).IP ∧
      ((m.Track d name e).1.profile d).Time = (m.profile d).Time := by
  rw [Track_profile]
  exact ⟨rfl, rfl, rfl, rfl, rfl⟩

/-- C14: for every finite sequence of `Track` and `Update` calls (any ids, any operation
kinds, whatever their results) made on a fresh `NewMock()`, the event sequence of the
profile of `d` is the list of the entries (event and name) of the `Track` calls made with
`d`, in call order. -/
theorem events_are_tracked (mem : Memory) (calls : List Call) (d : String) :
    (((NewMock mem).run calls).profile d).Events = trackedEvents d calls := by
  rw [run_Events]
  rfl

/-- After `interleavedCalls`, in which an update fails and another one aborts, the
profile `"1"` has the entries of its two `Track` calls, in call order. -/
theorem events_are_tracked_witness :
    (((NewMock exampleMemory).run interleavedCalls).profile "1").Events
      = [ { Event := { IP := "", Timestamp := none, Properties := [] }, Name := "Signed Up" },
          { Event := { IP := "10.0.0.1", Timestamp := none, Properties := [] },
            Name := "Paid" } ] :=
  (events_are_tracked exampleMemory interleavedCalls "1").trans (by decide)

/-- C15: key provenance.  In every state reached from `NewMock()` by `Track` and `Update`
calls, every key of the property mapping of the profile of `d` is a key of the property
mapping of an `Update` call made with `d`; one `Update` only adds keys that the update
carries, and `Track` changes no property mapping. -/
theorem key_provenance :
    (∀ (mem : Memory) (calls : List Call) (d k : String),
        ((NewMock mem).run calls).props d k ≠ none →
        ∃ u, Call.update d u ∈ calls ∧ k ∈ u.keys) ∧
      (∀ (m : Mock) (d : String) (u : Update) (d' k : String),
        (m.Update d u).1.props d' k ≠ none → m.props d' k = none → d' = d ∧ k ∈ u.keys) ∧
      (∀ (m : Mock) (d name : String) (e : Event) (d' : String),
        (m.Track d name e).1.props d' = m.props d') := by
  refine ⟨fun mem calls d k h => ?_, fun m d u d' k h habs => ?_,
    fun m d name e d' => ?_⟩
  · rcases run_keys calls (NewMock mem) d k h with h1 | h1
    · exact absurd rfl h1
    · exact h1
  · rcases call_keys m (Call.update d u) d' k h with h1 | ⟨u', hu, hk⟩
    · exact absurd habs h1
    · cases hu
      exact ⟨rfl, hk⟩
  · by_cases hd : d = d'
    · subst hd
      rw [Mock.props, Track_profile]
      rfl
    · rw [Mock.props, profile_congr _ _ _ (Track_People_other m d d' name e (Ne.symm hd))]
      rfl

/-- After `interleavedCalls` the profile `"1"` holds the key `"k"`, which the `$set` of
that sequence carries. -/
theorem key_provenance_witness :
    ((NewMock exampleMemory).run interleavedCalls).props "1" "k" = some (Value.str "x") ∧
      ∃ u, Call.update "1" u ∈ interleavedCalls ∧ "k" ∈ u.keys :=
  ⟨by decide, key_provenance.1 exampleMemory interleavedCalls "1" "k" (by decide)⟩

/-- C16, as stated, fails: two profiles can hold slices of one backing array, and an
update for one of them then rewrites the sequence of the other.  The profiles `"1"` and
`"2"` received one buffer `["a"]` of capacity 8 under `"f"`, and `"1"` holds `["a", "x"]`.
The successful `$union` of `["e"]` for `"2"` leaves `["a", "e"]` under `"f"` of `"1"`. -/
theorem other_profile_rewritten_counterexample :
    "1" ≠ "2" ∧ twoProfilesMock.strsAt "1" "f" = some ["a", "x"] ∧
      (twoProfilesMock.Update "2" (Update.of "$union" [("f", Value.strs (lit 9 1))])).2
        = Outcome.returned none ∧
      (twoProfilesMock.Update "2"
        (Update.of "$union" [("f", Value.strs (lit 9 1))])).1.strsAt "1" "f"
        = some ["a", "e"] := by
  decide

/-- C16 (amended): a `Track` or `Update` call for `d` works on one profile, created
lazily.  For every other id the `People` map holds what it held.  When `d` was unseen, the
profile of `d` after the call is the result of the operation on a profile with empty
properties, no timestamp, empty IP and no events; when `d` was known, it is the result of
the operation on the profile that was stored.  `Track` writes no sequence element.  After
an `Update`, the elements of a string sequence or of a generic sequence stored in another
profile are the ones before the call, provided that the sequence lies in an allocated array
that no sequence of its kind with spare capacity, stored in the profile of `d` under a key
of the update, shares. -/
theorem one_profile_touched (m : Mock) (d : String) :
    (∀ u : Update,
        (∀ d', d' ≠ d → (m.Update d u).1.People d' = m.People d') ∧
        (m.People d = none → (m.Update d u).1.People d
          = some { updateTime u (updateIP u (MockPeople.mk GoMap.empty none "" [])) with
                   Properties := (applyOperation u m.Mem GoMap.empty).1.2 }) ∧
        (∀ p, m.People d = some p → (m.Update d u).1.People d
          = some { updateTime u (updateIP u p) with
                   Properties := (applyOperation u m.Mem p.Properties).1.2 }) ∧
        (u.WF → ∀ d' k s, d' ≠ d → m.props d' k = some (Value.strs s) →
          s.arr < m.Mem.next → StrsQuiet (m.props d) u.keys s.arr →
          (m.Update d u).1.strsAt d' k = m.strsAt d' k) ∧
        (u.WF → ∀ d' k s, d' ≠ d → m.props d' k = some (Value.seq s) →
          s.arr < m.Mem.next → SeqsQuiet (m.props d) u.keys s.arr →
          (m.Update d u).1.seqAt d' k = m.seqAt d' k)) ∧
      (∀ (name : String) (e : Event),
        (∀ d', d' ≠ d → (m.Track d name e).1.People d' = m.People d') ∧
        (m.People d = none → (m.Track d name e).1.People d
          = some (MockPeople.mk GoMap.empty none "" [{ Event := e, Name := name }])) ∧
        (∀ p, m.People d = some p → (m.Track d name e).1.People d
          = some { p with Events := p.Events ++ [{ Event := e, Name := name }] }) ∧
        (m.Track d name e).1.Mem = m.Mem) := by
  refine ⟨fun u => ⟨fun d' hd' => Update_People_other m d d' u hd', fun hnone => ?_,
    fun p hp => ?_, fun hwf d' k s hd' hs hb hq => ?_, fun hwf d' k s hd' hs hb hq => ?_⟩,
    fun name e => ⟨fun d' hd' => Track_People_other m d d' name e hd',
    fun hnone => ?_, fun p hp => ?_, Track_Mem m d name e⟩⟩
  · have hprof : m.profile d = MockPeople.mk GoMap.empty none "" [] := by
      unfold Mock.profile
      rw [hnone]
      rfl
    rw [Update_People_self, Update_profile, Mock.props, hprof]
  · have hprof : m.profile d = p := by
      unfold Mock.profile
      rw [hp]
      rfl
    rw [Update_People_self, Update_profile, Mock.props, hprof]
  · refine strsAt_congr m _ d' k (congrFun (Update_props_other m d d' u hd') k)
      (fun s' hs' => ?_)
    rw [hs] at hs'
    cases hs'
    exact Update_strs m d u s.arr hwf hb hq
  · refine seqAt_congr m _ d' k (congrFun (Update_props_other m d d' u hd') k)
      (fun s' hs' => ?_)
    rw [hs] at hs'
    cases hs'
    exact Update_vals m d u s.arr hwf hb hq
  · have hprof : m.profile d = MockPeople.mk GoMap.empty none "" [] := by
      unfold Mock.profile
      rw [hnone]
      rfl
    rw [Track_People_self, Track_profile, hprof]
    rfl
  · have hprof : m.profile d = p := by
      unfold Mock.profile
      rw [hp]
      rfl
    rw [Track_People_self, Track_profile, hprof]

/-- On `twoStringsMock`, whose only profile is `"1"`, a `$union` for `"2"` leaves the
profile `"1"` in place, creates the profile `"2"`, and leaves the elements `["a", "b"]`
under `"f"` of `"1"`. -/
theorem one_profile_touched_witness :
    (twoStringsMock.Update "2" (Update.of "$union" [("f", Value.strs bufferA)])).1.People "1"
        = twoStringsMock.People "1" ∧
      (twoStringsMock.Update "2" (Update.of "$union" [("f", Value.strs bufferA)])).1.People "2"
        = some { updateTime (Update.of "$union" [("f", Value.strs bufferA)])
                  (updateIP (Update.of "$union" [("f", Value.strs bufferA)])
                    (MockPeople.mk GoMap.empty none "" [])) with
                 Properties := (applyOperation (Update.of "$union" [("f", Value.strs bufferA)])
                   twoStringsMock.Mem GoMap.empty).1.2 } ∧
      (twoStringsMock.Update "2"
        (Update.of "$union" [("f", Value.strs bufferA)])).1.strsAt "1" "f"
        = twoStringsMock.strsAt "1" "f" ∧
      twoStringsMock.strsAt "1" "f" = some ["a", "b"] :=
  ⟨((one_profile_touched twoStringsMock "2").1
      (Update.of "$union" [("f", Value.strs bufferA)])).1 "1" (by decide),
    ((one_profile_touched twoStringsMock "2").1
      (Update.of "$union" [("f", Value.strs bufferA)])).2.1 rfl,
    ((one_profile_touched twoStringsMock "2").1
      (Update.of "$union" [("f", Value.strs bufferA)])).2.2.2.1 (by decide) "1" "f"
      (lit 8 2) (by decide) (by decide) (by decide) (by decide),
    by decide⟩

/-- C17: for the transport client built by `New(token, baseURL)`, whenever the server
answers with the body `"0"`, optionally followed by a newline, both `Update` and `Track`
return the sentinel error `ErrTrackFailed`, for every distinct id, event name, event and
update. -/
theorem failure_body_gives_ErrTrackFailed (token baseURL : String) (codec : Codec)
    (server : Server) (body distinctId eventName : String) (e : Event) (u : Update)
    (hbody : body = "0" ∨ body = "0\n") (hserver : ∀ url, server url = Except.ok body) :
    (New token baseURL).Update codec server distinctId u = some ErrTrackFailed ∧
      (New token baseURL).Track codec server distinctId eventName e
        = some ErrTrackFailed := by
  have htrim : trimNewline body ≠ "1" := by
    rcases hbody with h | h <;> rw [h] <;> decide
  simp only [Client.Update, Client.Track, Client.send, hserver, if_neg htrim, and_self]

/-- The calls of `TestError`: against a server that answers `"0\n"`, `Update` and `Track`
return `ErrTrackFailed`. -/
theorem failure_body_gives_ErrTrackFailed_witness :
    (New "e3bc4100330c35722740fb8c6f5abddc" "http://127.0.0.1").Update plainCodec
        failingServer "1" (Update.of "" []) = some ErrTrackFailed ∧
      (New "e3bc4100330c35722740fb8c6f5abddc" "http://127.0.0.1").Track plainCodec
        failingServer "1" "name" { IP := "", Timestamp := none, Properties := [] }
        = some ErrTrackFailed :=
  failure_body_gives_ErrTrackFailed "e3bc4100330c35722740fb8c6f5abddc" "http://127.0.0.1"
    plainCodec failingServer "0\n" "1" "name" { IP := "", Timestamp := none, Properties := [] }
    (Update.of "" []) (Or.inr rfl) (fun _ => rfl)

/-- C18, as stated, fails: with one buffer `["a"]` of capacity 8 stored under `"f"` and
`"g"`, the successful `$union` of `["x"]` under `"f"` and `["y"]` under `"g"` leaves under
`"f"` a sequence in which `"x"`, an incoming element, does not occur, and in which `"y"`
occurs, an element of neither the stored nor the incoming sequence of `"f"`. -/
theorem union_not_set_union_counterexample :
    sharedUnion.Operation = "$union" ∧ sharedUnion.WF ∧
      ("f", Value.strs (lit 3 1)) ∈ sharedUnion.Properties ∧
      sharedMock.strsAt "1" "f" = some ["a"] ∧ sharedMock.Mem.readStrs (lit 3 1) = ["x"] ∧
      (sharedMock.Update "1" sharedUnion).2 = Outcome.returned none ∧
      ∃ r, (sharedMock.Update "1" sharedUnion).1.strsAt "1" "f" = some r ∧
        "x" ∉ r ∧ "y" ∈ r :=
  ⟨by decide, by decide, by decide, by decide, by decide, by decide,
    ["a", "y"], by decide, by decide, by decide⟩

/-- C18 (amended): the result of a `$union` onto an existing string sequence is a set
union: after a successful update the key holds a string sequence in which a string occurs
exactly when it occurs in the stored sequence `a` or in the incoming sequence `inc`, and
which has no duplicates when `a` has none, even when `inc` repeats an element; provided
that the string sequences stored under the keys of the update and `inc` lie in allocated
arrays, and that no string sequence with spare capacity stored under a key of the update
shares the array of `inc` or, under another key, the array of `a`. -/
theorem union_is_set_union (m : Mock) (d : String) (u : Update) (k : String)
    (a inc : Slice) (hop : u.Operation = "$union") (hwf : u.WF)
    (hk : (k, Value.strs inc) ∈ u.Properties)
    (hold : m.props d k = some (Value.strs a))
    (hok : (m.Update d u).2 = Outcome.returned none)
    (hal : StrsAllocated m.Mem (m.props d) u.keys) (hi : inc.arr < m.Mem.next)
    (hqi : StrsQuiet (m.props d) u.keys inc.arr)
    (hqa : StrsQuiet (m.props d) (u.keys.filter (fun k' => k' ≠ k)) a.arr) :
    ∃ r, (m.Update d u).1.strsAt d k = some r ∧
      (∀ x, x ∈ r ↔ x ∈ m.Mem.readStrs a ∨ x ∈ m.Mem.readStrs inc) ∧
      ((m.Mem.readStrs a).Nodup → r.Nodup) :=
  ⟨unionList (m.Mem.readStrs a) (m.Mem.readStrs inc),
    Update_union_contents m d u k a inc hop hwf hk hold hok hal hi hqi hqa,
    mem_unionList _ _, unionList_nodup _ _⟩

/-- A `$union` of `["c", "c", "a"]` onto the stored `["a", "b"]` leaves `["a", "b", "c"]`,
without duplicates. -/
theorem union_is_set_union_witness :
    (twoStringsMock.Update "1"
        (Update.of "$union" [("f", Value.strs (lit 7 3))])).1.strsAt "1" "f"
        = some ["a", "b", "c"] ∧
      twoStringsMock.Mem.readStrs (lit 8 2) = ["a", "b"] ∧
      twoStringsMock.Mem.readStrs (lit 7 3) = ["c", "c", "a"] ∧
      ∃ r, (twoStringsMock.Update "1"
          (Update.of "$union" [("f", Value.strs (lit 7 3))])).1.strsAt "1" "f" = some r ∧
        (∀ x, x ∈ r ↔ x ∈ twoStringsMock.Mem.readStrs (lit 8 2)
          ∨ x ∈ twoStringsMock.Mem.readStrs (lit 7 3)) ∧
        ((twoStringsMock.Mem.readStrs (lit 8 2)).Nodup → r.Nodup) :=
  ⟨by decide, by decide, by decide,
    union_is_set_union twoStringsMock "1"
      (Update.of "$union" [("f", Value.strs (lit 7 3))]) "f" (lit 8 2) (lit 7 3)
      (by decide) (by decide) (by decide) (by decide) (by decide) (by decide) (by decide)
      (by decide) (by decide)⟩

/-- C19, as stated, fails for `$union`: with one buffer `["a"]` of capacity 8 stored under
`"f"` and `"g"`, the `$union` of `["x"]` under `"f"` and `["y"]` under `"g"` returns `nil`
and leaves `["a", "y"]` under `"f"`; applied again to that state it returns `nil` and
leaves `["a", "y", "x"]` under `"f"`. -/
theorem reapply_shared_array_counterexample :
    sharedUnion.Operation = "$union" ∧ sharedUnion.WF ∧
      (sharedMock.Update "1" sharedUnion).2 = Outcome.returned none ∧
      ((sharedMock.Update "1" sharedUnion).1.Update "1" sharedUnion).2
        = Outcome.returned none ∧
      (sharedMock.Update "1" sharedUnion).1.strsAt "1" "f" = some ["a", "y"] ∧
      ((sharedMock.Update "1" sharedUnion).1.Update "1" sharedUnion).1.strsAt "1" "f"
        = some ["a", "y", "x"] ∧
      ((sharedMock.Update "1" sharedUnion).1.Update "1" sharedUnion).1
        ≠ (sharedMock.Update "1" sharedUnion).1 :=
  ⟨by decide, by decide, by decide, by decide, by decide, by decide,
    fun h => absurd (congrArg (fun x => Mock.strsAt x "1" "f") h) (by decide)⟩

/-- C19 (amended): applying an update again is harmless for the kinds `$set` and
`$set_once`, and for `$union` when the string sequences involved are apart: when
`Update(d, u)` returns `nil`, applying `Update(d, u)` to the state it leaves gives that
state again (properties, IP, timestamp, events, the other profiles and the elements of the
stored sequences). -/
theorem reapply_is_harmless (m : Mock) (d : String) (u : Update) (hwf : u.WF)
    (hop : u.Operation = "$set" ∨ u.Operation = "$set_once" ∨
      (u.Operation = "$union" ∧ UnionSeparate m.Mem (m.props d) u.Properties))
    (hok : (m.Update d u).2 = Outcome.returned none) :
    ((m.Update d u).1.Update d u).1 = (m.Update d u).1 := by
  apply Update_eq_self
  · rw [Update_People_self]
    rfl
  · apply updateIP_fix u (m.profile d)
    rw [Update_profile]
    show (updateTime u (updateIP u (m.profile d))).IP = _
    rw [updateTime_IP]
  · apply updateTime_fix u (updateIP u (m.profile d))
    rw [Update_profile]
  · rw [Update_props, Update_Mem]
    rw [Update_outcome] at hok
    rcases hop with h | h | ⟨h, hsep⟩
    · rw [applyOperation_set u _ _ h, applyOperation_set u _ _ h]
      show (m.Mem, setLoop u.Properties (setLoop u.Properties (m.props d))) = _
      rw [setLoop_stable _ _ (fun e he => setLoop_applied _ _ e.1 e.2 hwf he)]
    · rw [applyOperation_set_once u _ _ h, applyOperation_set_once u _ _ h]
      show (m.Mem, setOnceLoop u.Properties (setOnceLoop u.Properties (m.props d))) = _
      rw [setOnceLoop_stable _ _ (fun e he => ?_)]
      show setOnceLoop u.Properties (m.props d) e.1 ≠ none
      rw [setOnceLoop_applied _ _ e.1 e.2 hwf he]
      unfold setOnceValue
      split <;> simp
    · rw [applyOperation_union u _ _ h] at hok
      rw [applyOperation_union u _ _ h, applyOperation_union u _ _ h]
      exact unionLoop_reapply u.Properties m.Mem (m.props d) hwf hok hsep

/-- The last update of `TestUpdateUnion`, applied a second time, leaves the state that
the first application left. -/
theorem reapply_is_harmless_witness :
    ((twoStringsMock.Update "1"
        (Update.of "$union" [("f", Value.strs (lit 2 4))])).1.Update "1"
        (Update.of "$union" [("f", Value.strs (lit 2 4))])).1
      = (twoStringsMock.Update "1"
          (Update.of "$union" [("f", Value.strs (lit 2 4))])).1 :=
  reapply_is_harmless twoStringsMock "1"
    (Update.of "$union" [("f", Value.strs (lit 2 4))]) (by decide)
    (Or.inr (Or.inr ⟨by decide, by decide⟩)) (by decide)

/-- C20 fails on the code: the same `$union` of the keys `"a"` and `"b"` onto a profile
that holds a string under `"a"` and a string sequence under `"b"` returns the error of
`"a"` when `"a"` is visited first, and aborts on `u.Properties[key].([]string)` when `"b"`
is visited first. -/
theorem visiting_order_matters :
    unionAB.Properties.Perm unionBA.Properties ∧
      unionAB.Operation = unionBA.Operation ∧ unionAB.IP = unionBA.IP ∧
      unionAB.Timestamp = unionBA.Timestamp ∧ unionAB.WF ∧ unionBA.WF ∧
      (mixedMock.Update "1" unionAB).2
        = Outcome.returned (some "Can only do $union operation on an array") ∧
      (mixedMock.Update "1" unionBA).2 = Outcome.panicked :=
  ⟨List.Perm.swap _ _ _, rfl, rfl, rfl, by decide, by decide, by decide, by decide⟩


end Mixpanel
